import Mathlib

/-!
# runcmd

A shallow embedding of `runcmd.go` (package `runcmd`): the types `CommandError`
and `Streams`, the method `(*CommandError).Error` and the function `Run`,
together with the Go library routines they call (`bytes.TrimSpace`,
`fmt.Sprintf` for the verb `%s`, `strings.Join`, `bytes.Buffer`, and the part of
`os/exec` that `Run` touches).

Go strings and byte slices are lists of bytes.  Pointers are addresses into an
explicit heap; `nil` is `none`.  A method that dereferences `nil` panics, which
is the result `none`.
-/

/-- The bytes of an ASCII string literal of the source.  A byte is a natural
number below 256, a rune (Unicode code point) a natural number. -/
def bytesOf (s : String) : List Nat := s.toList.map Char.toNat

/-! ## unicode/utf8 -/

namespace utf8

def RuneError : Nat := 0xFFFD
def RuneSelf : Nat := 0x80
def UTFMax : Nat := 4

def maskx : Nat := 0x3F
def mask2 : Nat := 0x1F
def mask3 : Nat := 0x0F
def mask4 : Nat := 0x07

def locb : Nat := 0x80
def hicb : Nat := 0xBF

def xx : Nat := 0xF1
def as : Nat := 0xF0
def s1 : Nat := 0x02
def s2 : Nat := 0x13
def s3 : Nat := 0x03
def s4 : Nat := 0x23
def s5 : Nat := 0x34
def s6 : Nat := 0x04
def s7 : Nat := 0x44

/-- The table `first`: information about the first byte of a UTF-8 sequence.
Rows 0x00-0x7F are `as`, 0x80-0xC1 `xx`, 0xC2-0xDF `s1`, 0xE0 `s2`, 0xE1-0xEC `s3`,
0xED `s4`, 0xEE-0xEF `s3`, 0xF0 `s5`, 0xF1-0xF3 `s6`, 0xF4 `s7`, 0xF5-0xFF `xx`. -/
def first (b : Nat) : Nat :=
  if b < 0x80 then as
  else if b < 0xC2 then xx
  else if b < 0xE0 then s1
  else if b = 0xE0 then s2
  else if b < 0xED then s3
  else if b = 0xED then s4
  else if b < 0xF0 then s3
  else if b = 0xF0 then s5
  else if b < 0xF4 then s6
  else if b = 0xF4 then s7
  else xx

/-- An entry of `acceptRanges`: the lowest and highest value of the second byte. -/
structure acceptRange where
  lo : Nat
  hi : Nat
deriving DecidableEq

/-- The table `acceptRanges` (sixteen entries, the last eleven zero). -/
def acceptRanges (i : Nat) : acceptRange :=
  match i with
  | 0 => ⟨locb, hicb⟩
  | 1 => ⟨0xA0, hicb⟩
  | 2 => ⟨locb, 0x9F⟩
  | 3 => ⟨0x90, hicb⟩
  | 4 => ⟨locb, 0x8F⟩
  | _ => ⟨0, 0⟩

/-- The function `utf8.DecodeRune`: the first rune of `p` and its width in bytes;
`(RuneError, 0)` for empty `p`, `(RuneError, 1)` for an invalid encoding.
In the source `mask := rune(x) << 31 >> 31` is all ones when `x` is odd (`xx`)
and zero when `x` is even (`as`), so `rune(p[0])&^mask | RuneError&mask` is
`RuneError` for `xx` and `p[0]` for `as`. -/
def DecodeRune (p : List Nat) : Nat × Nat :=
  let n := p.length
  if n < 1 then (RuneError, 0) else
  let p0 := p.getD 0 0
  let x := first p0
  if x ≥ as then (if x % 2 = 1 then RuneError else p0, 1) else
  let sz := x &&& 7
  let accept := acceptRanges (x >>> 4)
  if n < sz then (RuneError, 1) else
  let b1 := p.getD 1 0
  if b1 < accept.lo ∨ accept.hi < b1 then (RuneError, 1) else
  if sz ≤ 2 then (((p0 &&& mask2) <<< 6) ||| (b1 &&& maskx), 2) else
  let b2 := p.getD 2 0
  if b2 < locb ∨ hicb < b2 then (RuneError, 1) else
  if sz ≤ 3 then
    (((p0 &&& mask3) <<< 12) ||| ((b1 &&& maskx) <<< 6) ||| (b2 &&& maskx), 3) else
  let b3 := p.getD 3 0
  if b3 < locb ∨ hicb < b3 then (RuneError, 1) else
  (((p0 &&& mask4) <<< 18) ||| ((b1 &&& maskx) <<< 12) ||| ((b2 &&& maskx) <<< 6)
    ||| (b3 &&& maskx), 4)

/-- The function `utf8.RuneStart`: the byte is not a continuation byte. -/
def RuneStart (b : Nat) : Bool := b &&& 0xC0 != 0x80

/-- The loop `for start--; start >= lim; start-- { if RuneStart(p[start]) { break } }`
of `DecodeLastRune`, entered with `start` already decremented; the result is the
value of `start` when the loop is left. -/
def backToRuneStart (p : List Nat) (lim : Int) : Nat → Int → Int
  | 0, start => start
  | fuel + 1, start =>
    if start ≥ lim then
      if RuneStart (p.getD start.toNat 0) then start
      else backToRuneStart p lim fuel (start - 1)
    else start

/-- The function `utf8.DecodeLastRune`: the last rune of `p` and its width. -/
def DecodeLastRune (p : List Nat) : Nat × Nat :=
  let stop : Int := p.length
  if stop = 0 then (RuneError, 0) else
  let start := stop - 1
  let r := p.getD start.toNat 0
  if r < RuneSelf then (r, 1) else
  let lim := if stop - UTFMax < 0 then 0 else stop - UTFMax
  let start := backToRuneStart p lim (UTFMax + 1) (start - 1)
  let start := if start < 0 then 0 else start
  let rs := DecodeRune (p.drop start.toNat)
  if start + rs.2 ≠ stop then (RuneError, 1) else rs

end utf8

/-! ## unicode -/

namespace unicode

def MaxLatin1 : Nat := 0xFF

/-- The members of the range table `White_Space` above Latin-1, as inclusive
ranges (lo, hi): U+1680, U+2000..U+200A, U+2028, U+2029, U+202F, U+205F, U+3000. -/
def White_Space : List (Nat × Nat) :=
  [(0x1680, 0x1680), (0x2000, 0x200a), (0x2028, 0x2029), (0x202f, 0x202f),
   (0x205f, 0x205f), (0x3000, 0x3000)]

/-- The function `unicode.IsSpace`: white space as defined by Unicode.  In
Latin-1 these are tab, newline, vertical tab, form feed, carriage return, space,
U+0085 and U+00A0; above Latin-1 the members of `White_Space`. -/
def IsSpace (r : Nat) : Bool :=
  if r ≤ MaxLatin1 then
    r = 0x09 ∨ r = 0x0A ∨ r = 0x0B ∨ r = 0x0C ∨ r = 0x0D ∨ r = 0x20 ∨ r = 0x85 ∨ r = 0xA0
  else
    White_Space.any (fun rg => rg.1 ≤ r && r ≤ rg.2)

end unicode

/-! ## bytes -/

namespace bytes

/-- The table `asciiSpace`: 1 for tab, newline, vertical tab, form feed, carriage
return and space, 0 for every other byte. -/
def asciiSpace (c : Nat) : Nat :=
  if c = 0x09 ∨ c = 0x0A ∨ c = 0x0B ∨ c = 0x0C ∨ c = 0x0D ∨ c = 0x20 then 1 else 0

/-- The loop of `indexFunc`, from index `start`; `-1` when no rune satisfies
`f(r) == truth`.  Each round advances `start` by at least one, so `fuel` rounds
with `len(s) - start ≤ fuel` reach the end of the loop. -/
def indexFuncLoop (s : List Nat) (f : Nat → Bool) (truth : Bool) : Nat → Nat → Int
  | 0, _ => -1
  | fuel + 1, start =>
    if start < s.length then
      let r0 := s.getD start 0
      let rw := if r0 ≥ utf8.RuneSelf then utf8.DecodeRune (s.drop start) else (r0, 1)
      if f rw.1 == truth then (start : Int)
      else indexFuncLoop s f truth fuel (start + rw.2)
    else -1

/-- The function `indexFunc`. -/
def indexFunc (s : List Nat) (f : Nat → Bool) (truth : Bool) : Int :=
  indexFuncLoop s f truth s.length 0

/-- The loop of `lastIndexFunc`, from index `i`, scanning backwards. -/
def lastIndexFuncLoop (s : List Nat) (f : Nat → Bool) (truth : Bool) : Nat → Nat → Int
  | 0, _ => -1
  | fuel + 1, i =>
    if i > 0 then
      let r0 := s.getD (i - 1) 0
      let rs := if r0 ≥ utf8.RuneSelf then utf8.DecodeLastRune (s.take i) else (r0, 1)
      let i := i - rs.2
      if f rs.1 == truth then (i : Int)
      else lastIndexFuncLoop s f truth fuel i
    else -1

/-- The function `lastIndexFunc`. -/
def lastIndexFunc (s : List Nat) (f : Nat → Bool) (truth : Bool) : Int :=
  lastIndexFuncLoop s f truth s.length s.length

/-- The function `bytes.TrimLeftFunc`. -/
def TrimLeftFunc (s : List Nat) (f : Nat → Bool) : List Nat :=
  let i := indexFunc s f false
  if i = -1 then [] else s.drop i.toNat

/-- The function `bytes.TrimRightFunc`. -/
def TrimRightFunc (s : List Nat) (f : Nat → Bool) : List Nat :=
  let i := lastIndexFunc s f false
  let i :=
    if i ≥ 0 ∧ s.getD i.toNat 0 ≥ utf8.RuneSelf then
      i + (utf8.DecodeRune (s.drop i.toNat)).2
    else i + 1
  s.take i.toNat

/-- The function `bytes.TrimFunc`. -/
def TrimFunc (s : List Nat) (f : Nat → Bool) : List Nat :=
  TrimRightFunc (TrimLeftFunc s f) f

/-- The first loop of `bytes.TrimSpace`: `Except.error out` is the early
`return TrimFunc(s[start:], unicode.IsSpace)`, `Except.ok start` is the value of
`start` when the loop is left. -/
def trimSpaceStart (s : List Nat) : Nat → Nat → Except (List Nat) Nat
  | 0, start => .ok start
  | fuel + 1, start =>
    if start < s.length then
      let c := s.getD start 0
      if c ≥ utf8.RuneSelf then .error (TrimFunc (s.drop start) unicode.IsSpace)
      else if asciiSpace c = 0 then .ok start
      else trimSpaceStart s fuel (start + 1)
    else .ok start

/-- The second loop of `bytes.TrimSpace`: `Except.error out` is the early
`return TrimFunc(s[start:stop], unicode.IsSpace)`, `Except.ok stop` is the value
of `stop` when the loop is left. -/
def trimSpaceStop (s : List Nat) (start : Nat) : Nat → Nat → Except (List Nat) Nat
  | 0, stop => .ok stop
  | fuel + 1, stop =>
    if stop > start then
      let c := s.getD (stop - 1) 0
      if c ≥ utf8.RuneSelf then
        .error (TrimFunc ((s.take stop).drop start) unicode.IsSpace)
      else if asciiSpace c = 0 then .ok stop
      else trimSpaceStop s start fuel (stop - 1)
    else .ok stop

/-- The function `bytes.TrimSpace`: slices off all leading and trailing white
space, as defined by Unicode.  An ASCII fast path skips the six ASCII
white-space bytes from both ends and falls back to `TrimFunc` with
`unicode.IsSpace` at the first byte that is not ASCII. -/
def TrimSpace (s : List Nat) : List Nat :=
  match trimSpaceStart s s.length 0 with
  | .error out => out
  | .ok start =>
    match trimSpaceStop s start s.length s.length with
    | .error out => out
    | .ok stop => if start = stop then [] else (s.take stop).drop start

end bytes

/-! ## unicode/utf8: the table lookups in closed form, valid encodings -/

namespace utf8

/-- Size and accepted range of the second byte for a lead byte of a multi-byte
sequence; `none` for an ASCII byte and for a byte that cannot start a sequence. -/
def lead (p0 : Nat) : Option (Nat × Nat × Nat) :=
  if 0xC2 ≤ p0 ∧ p0 < 0xE0 then some (2, 0x80, 0xBF)
  else if p0 = 0xE0 then some (3, 0xA0, 0xBF)
  else if 0xE1 ≤ p0 ∧ p0 < 0xED then some (3, 0x80, 0xBF)
  else if p0 = 0xED then some (3, 0x80, 0x9F)
  else if 0xEE ≤ p0 ∧ p0 < 0xF0 then some (3, 0x80, 0xBF)
  else if p0 = 0xF0 then some (4, 0x90, 0xBF)
  else if 0xF1 ≤ p0 ∧ p0 < 0xF4 then some (4, 0x80, 0xBF)
  else if p0 = 0xF4 then some (4, 0x80, 0x8F)
  else none

/-- The table `first` agrees with `lead` at the byte `p0`. -/
def leadAgrees (p0 : Nat) : Bool :=
  match lead p0 with
  | none => decide (first p0 ≥ as) && decide (first p0 % 2 = 1 ↔ 0x80 ≤ p0)
  | some (sz, lo, hi) =>
    decide (first p0 < as) && decide (first p0 &&& 7 = sz) &&
    decide (acceptRanges (first p0 >>> 4) = ⟨lo, hi⟩) &&
    decide (sz = 2 ∨ sz = 3 ∨ sz = 4) && decide (0x80 ≤ lo) && decide (hi ≤ 0xBF) &&
    decide (0xC2 ≤ p0) && decide (p0 ≤ 0xF4) &&
    decide (sz = 2 → p0 < 0xE0) &&
    decide (sz = 3 → 0xE0 ≤ p0 ∧ p0 < 0xF0 ∧ (p0 = 0xE0 → 0xA0 ≤ lo)) &&
    decide (sz = 4 → 0xF0 ≤ p0 ∧ (p0 = 0xF0 → 0x90 ≤ lo))

/-- The body of `DecodeRune` after the table lookups, for a lead byte of a
sequence of `sz` bytes whose second byte lies in `lo..hi`. -/
def decodeWith (sz lo hi p0 : Nat) (rest : List Nat) : Nat × Nat :=
  if rest.length + 1 < sz then (RuneError, 1) else
  let b1 := rest.getD 0 0
  if b1 < lo ∨ hi < b1 then (RuneError, 1) else
  if sz ≤ 2 then (((p0 &&& mask2) <<< 6) ||| (b1 &&& maskx), 2) else
  let b2 := rest.getD 1 0
  if b2 < locb ∨ hicb < b2 then (RuneError, 1) else
  if sz ≤ 3 then
    (((p0 &&& mask3) <<< 12) ||| ((b1 &&& maskx) <<< 6) ||| (b2 &&& maskx), 3) else
  let b3 := rest.getD 2 0
  if b3 < locb ∨ hicb < b3 then (RuneError, 1) else
  (((p0 &&& mask4) <<< 18) ||| ((b1 &&& maskx) <<< 12) ||| ((b2 &&& maskx) <<< 6)
    ||| (b3 &&& maskx), 4)

/-- A complete, valid UTF-8 encoding of one code point, as `DecodeRune` accepts it. -/
def validEnc : List Nat → Bool
  | [] => false
  | [a] => decide (a < 0x80)
  | a :: b :: rest =>
    match lead a with
    | none => false
    | some (sz, lo, hi) =>
      decide (sz = rest.length + 2) && decide (lo ≤ b ∧ b ≤ hi) &&
        rest.all (fun c => decide (0x80 ≤ c ∧ c ≤ 0xBF))

end utf8

/-! ## bytes: white-space characters -/

namespace bytes

open utf8 unicode

/-- One white-space character in UTF-8: a non-empty byte sequence that
`DecodeRune` consumes whole and whose rune satisfies `unicode.IsSpace`. -/
def spaceSeq (e : List Nat) : Bool :=
  !e.isEmpty && (DecodeRune e).2 == e.length && IsSpace (DecodeRune e).1

/-- White space only: a concatenation of white-space characters. -/
inductive AllSpace : List Nat → Prop
  | nil : AllSpace []
  | cons (e w : List Nat) : spaceSeq e = true → AllSpace w → AllSpace (e ++ w)

/-- The sequence neither begins nor ends with a white-space character: it is
empty, or its first rune and its last rune are not white space. -/
def Trimmed (t : List Nat) : Bool :=
  t.isEmpty || (!IsSpace (DecodeRune t).1 && !IsSpace (DecodeLastRune t).1)

/-- The UTF-8 encodings of the code points for which `unicode.IsSpace` holds:
U+0009..U+000D, U+0020, U+0085, U+00A0, U+1680, U+2000..U+200A, U+2028, U+2029,
U+202F, U+205F and U+3000. -/
def spaceEncodings : List (List Nat) :=
  [[0x09], [0x0A], [0x0B], [0x0C], [0x0D], [0x20], [0xC2, 0x85], [0xC2, 0xA0],
   [0xE1, 0x9A, 0x80],
   [0xE2, 0x80, 0x80], [0xE2, 0x80, 0x81], [0xE2, 0x80, 0x82], [0xE2, 0x80, 0x83],
   [0xE2, 0x80, 0x84], [0xE2, 0x80, 0x85], [0xE2, 0x80, 0x86], [0xE2, 0x80, 0x87],
   [0xE2, 0x80, 0x88], [0xE2, 0x80, 0x89], [0xE2, 0x80, 0x8A],
   [0xE2, 0x80, 0xA8], [0xE2, 0x80, 0xA9], [0xE2, 0x80, 0xAF], [0xE2, 0x81, 0x9F],
   [0xE3, 0x80, 0x80]]

end bytes

/-! ## bytes.Buffer -/

namespace bytes

/-- The type `bytes.Buffer`: the contents `buf`, of which the bytes before `off`
have been read.  The zero value is an empty buffer. -/
structure Buffer where
  buf : List Nat
  off : Nat
deriving DecidableEq

/-- The method `(*Buffer).Bytes`: the unread portion `b.buf[b.off:]`. -/
def Buffer.Bytes (b : Buffer) : List Nat := b.buf.drop b.off

/-- The method `(*Buffer).Write`: appends `p` to the contents. -/
def Buffer.Write (b : Buffer) (p : List Nat) : Buffer := { b with buf := b.buf ++ p }

end bytes

/-! ## strings and fmt -/

namespace strings

/-- The function `strings.Join`: empty for no elements, the element itself for
one, otherwise the first element followed by `sep` and each later element. -/
def Join (elems : List (List Nat)) (sep : List Nat) : List Nat :=
  match elems with
  | [] => []
  | [a] => a
  | a :: rest => rest.foldl (fun b s => b ++ sep ++ s) a

end strings

namespace fmt

/-- The function `fmt.Sprintf` for formats whose only verb is `%s` and operands
that are strings or byte slices: each `%s` (0x25 0x73) is replaced by the bytes
of the next operand, every other byte is copied.  A `%s` without operand prints
`%!s(MISSING)`. -/
def Sprintf : List Nat → List (List Nat) → List Nat
  | [], _ => []
  | 0x25 :: 0x73 :: rest, a :: args => a ++ Sprintf rest args
  | 0x25 :: 0x73 :: rest, [] => bytesOf "%!s(MISSING)" ++ Sprintf rest []
  | c :: rest, args => c :: Sprintf rest args

end fmt

/-! ## runcmd: types and heap -/

namespace runcmd

/-- The type `Streams`: pointers to the output and error buffers
(`*bytes.Buffer`, `none` for nil). -/
structure Streams where
  out : Option Nat
  err : Option Nat
deriving DecidableEq

/-- The type `CommandError`: the full command and a pointer to the streams
(`*Streams`, `none` for nil). -/
structure CommandError where
  fullCommand : List Nat
  streams : Option Nat
deriving DecidableEq

/-- The heap: the allocated buffers, `Streams` and `CommandError` values.  The
address of an object is its index; allocation appends. -/
structure Heap where
  buffers : List bytes.Buffer
  streams : List Streams
  commandErrors : List CommandError
deriving DecidableEq

end runcmd

/-! ## os/exec -/

namespace exec

/-- A value of `io.Writer` as `Run` meets it: nil, a `*bytes.Buffer`, or some
other writer of the caller. -/
inductive Writer where
  | nil
  | buffer (a : Nat)
  | other (id : Nat)
deriving DecidableEq

/-- The fields of `exec.Cmd` that the caller sets and `Run` reads or writes. -/
structure Cmd where
  Path : List Nat
  Args : List (List Nat)
  Env : List (List Nat)
  Dir : List Nat
  Stdout : Writer
  Stderr : Writer
deriving DecidableEq

/-- A non-nil error of `(*Cmd).Run`: the command ran and exited with a non-zero
status (`*exec.ExitError`), or it failed to start or to complete. -/
inductive RunError where
  | exit (code : Nat)
  | start (msg : List Nat)
deriving DecidableEq

/-- What one execution of the process does: the bytes it writes to standard
output and to standard error, and the error `(*Cmd).Run` reports (`none` when
the command starts, runs and exits with status zero). -/
structure Outcome where
  stdout : List Nat
  stderr : List Nat
  err : Option RunError
deriving DecidableEq

/-- Bytes `p` written to the writer `w`: a buffer grows by `p`. -/
def write (h : runcmd.Heap) (w : Writer) (p : List Nat) : runcmd.Heap :=
  match w with
  | .buffer a =>
    match h.buffers[a]? with
    | some b => { h with buffers := h.buffers.set a (b.Write p) }
    | none => h
  | _ => h

/-- The method `(*Cmd).Run` of os/exec, by its documented contract: the output
of the process is copied to `c.Stdout` and `c.Stderr`, and the returned error is
nil exactly when the command starts, runs and exits with a zero status. -/
def Cmd.Run (c : Cmd) (o : Outcome) (h : runcmd.Heap) : runcmd.Heap × Option RunError :=
  (write (write h c.Stdout o.stdout) c.Stderr o.stderr, o.err)

end exec

/-! ## runcmd: Error and Run -/

namespace runcmd

/-- A value of the interface `error` as `Run` returns or receives it: nil, an
error of os/exec, or a `*CommandError`. -/
inductive error where
  | nil
  | exec (e : exec.RunError)
  | commandError (p : Nat)
deriving DecidableEq

/-- The method `(*Streams).Stderr`: `return s.err`; `none` is the panic of a nil
receiver. -/
def Streams.Stderr (h : Heap) (s : Option Nat) : Option (Option Nat) :=
  match s with
  | none => none
  | some a => h.streams[a]?.map (fun st => st.err)

/-- The method `(*Streams).Stdout`: `return s.out`; `none` is the panic of a nil
receiver. -/
def Streams.Stdout (h : Heap) (s : Option Nat) : Option (Option Nat) :=
  match s with
  | none => none
  | some a => h.streams[a]?.map (fun st => st.out)

/-- The method `(*bytes.Buffer).Bytes` through a pointer; `none` is the panic of
a nil receiver. -/
def Bytes (h : Heap) (b : Option Nat) : Option (List Nat) :=
  match b with
  | none => none
  | some a => h.buffers[a]?.map bytes.Buffer.Bytes

/-- The method `(*CommandError).Error`; `none` is a nil-pointer panic. -/
def CommandError.Error (h : Heap) (e : Option Nat) : Option (List Nat) := do
  let ce ← e.bind (fun a => h.commandErrors[a]?)
  let berr ← Streams.Stderr h ce.streams
  let eb ← Bytes h berr
  let bout ← Streams.Stdout h ce.streams
  let ob ← Bytes h bout
  pure (fmt.Sprintf (bytesOf "error executing: %s:\n%s\n%s")
    [ce.fullCommand, eb, bytes.TrimSpace ob])

/-- The `CommandError` at address `p`, read through its pointers: its full
command, the bytes of its error buffer and the bytes of its output buffer;
`none` when `p` or one of the pointers is nil or dangling. -/
def holds (h : Heap) (p : Nat) : Option (List Nat × List Nat × List Nat) := do
  let ce ← h.commandErrors[p]?
  let s ← ce.streams
  let st ← h.streams[s]?
  let ao ← st.out
  let ae ← st.err
  let bo ← h.buffers[ao]?
  let be ← h.buffers[ae]?
  pure (ce.fullCommand, be.Bytes, bo.Bytes)

/-- What `Run` leaves behind: the heap, the command (which `Run` receives by
pointer and updates), and its two results. -/
structure Result where
  heap : Heap
  cmd : exec.Cmd
  streams : Option Nat
  err : error
deriving DecidableEq

/-- The function `Run` on a non-nil `cmd`, for an execution of the process with
outcome `o`: two new buffers and a `Streams` pointing to them are allocated,
the buffers become the sinks of `cmd`, `cmd.Run()` is called, and on an error a
`CommandError` is allocated and returned. -/
def Run (o : exec.Outcome) (cmd : exec.Cmd) (h : Heap) : Result :=
  let bout := h.buffers.length
  let berr := h.buffers.length + 1
  let h := { h with buffers := h.buffers ++ [bytes.Buffer.mk [] 0, bytes.Buffer.mk [] 0] }
  let streams := h.streams.length
  let h := { h with streams := h.streams ++ [Streams.mk (some bout) (some berr)] }
  let cmd := { cmd with Stdout := .buffer bout }
  let cmd := { cmd with Stderr := .buffer berr }
  match cmd.Run o h with
  | (h, some _) =>
    let e := h.commandErrors.length
    let h := { h with commandErrors := h.commandErrors ++
      [CommandError.mk (cmd.Path ++ bytesOf " " ++ strings.Join cmd.Args (bytesOf " "))
        (some streams)] }
    { heap := h, cmd := cmd, streams := some streams, err := .commandError e }
  | (h, none) => { heap := h, cmd := cmd, streams := some streams, err := .nil }

end runcmd

/-! ## Sample inputs -/

namespace runcmd

/-- A heap with no objects. -/
def emptyHeap : Heap := { buffers := [], streams := [], commandErrors := [] }

/-- A command `/bin/check check --strict` whose caller attached a writer of its
own as standard output. -/
def sampleCmd : exec.Cmd :=
  { Path := bytesOf "/bin/check", Args := [bytesOf "check", bytesOf "--strict"],
    Env := [bytesOf "LANG=C"], Dir := bytesOf "/tmp", Stdout := .other 1, Stderr := .nil }

/-- An execution that writes `bad input` to standard error, some output
surrounded by blank lines to standard output, and exits with status 1. -/
def badInput : exec.Outcome :=
  { stdout := bytesOf "\n checked 3 files \n", stderr := bytesOf "bad input",
    err := some (.exit 1) }

/-- An execution of `echo hello`: `hello` and a newline on standard output,
exit status 0. -/
def echoHello : exec.Outcome :=
  { stdout := bytesOf "hello\n", stderr := [], err := none }

/-- An execution that fails to start (the executable does not exist) and writes
nothing. -/
def notFound : exec.Outcome :=
  { stdout := [], stderr := [],
    err := some (.start (bytesOf "no such file or directory")) }

/-- An execution whose output begins with a no-break space (U+00A0, in UTF-8 the
bytes 0xC2 0xA0) followed by `x`, and which exits with status 1. -/
def nbspOutput : exec.Outcome :=
  { stdout := [0xC2, 0xA0, 0x78], stderr := [], err := some (.exit 1) }

end runcmd

/-! ## Theorems: unicode/utf8
The table lookups of `DecodeRune` are summarised by `lead`; every result of
`DecodeRune` and `DecodeLastRune` is an error of width one or the decoding of a
valid encoding at the front (at the end) of the input. -/

namespace utf8

set_option maxRecDepth 100000 in
theorem leadAgrees_lt : ∀ p0, p0 < 256 → leadAgrees p0 = true := by decide

theorem leadAgrees_ge (p0 : Nat) (h : 256 ≤ p0) : leadAgrees p0 = true := by
  have h1 : lead p0 = none := by
    unfold lead
    repeat (first | rw [if_neg (by omega)] | rfl)
  have h2 : first p0 = xx := by
    unfold first
    repeat (first | rw [if_neg (by omega)] | rfl)
  simp only [leadAgrees, h1, h2]
  simp [as, xx]; omega

theorem leadAgrees_all (p0 : Nat) : leadAgrees p0 = true := by
  by_cases h : p0 < 256
  · exact leadAgrees_lt p0 h
  · exact leadAgrees_ge p0 (by omega)

theorem first_of_lead_none (p0 : Nat) (h : lead p0 = none) :
    first p0 ≥ as ∧ (first p0 % 2 = 1 ↔ 0x80 ≤ p0) := by
  have := leadAgrees_all p0
  simp only [leadAgrees, h] at this
  simpa using this

theorem first_of_lead_some (p0 sz lo hi : Nat) (h : lead p0 = some (sz, lo, hi)) :
    first p0 < as ∧ first p0 &&& 7 = sz ∧ acceptRanges (first p0 >>> 4) = ⟨lo, hi⟩ ∧
    (sz = 2 ∨ sz = 3 ∨ sz = 4) ∧ 0x80 ≤ lo ∧ hi ≤ 0xBF ∧ 0xC2 ≤ p0 ∧ p0 ≤ 0xF4 := by
  have := leadAgrees_all p0
  simp only [leadAgrees, h, Bool.and_eq_true, decide_eq_true_eq] at this
  obtain ⟨⟨⟨⟨⟨⟨⟨⟨⟨⟨h1, h2⟩, h3⟩, h4⟩, h5⟩, h6⟩, h7⟩, h8⟩, -⟩, -⟩, -⟩ := this
  exact ⟨h1, h2, h3, h4, h5, h6, h7, h8⟩

/-- The lead bytes of each sequence length. -/
theorem lead_ranges (p0 sz lo hi : Nat) (h : lead p0 = some (sz, lo, hi)) :
    (sz = 2 → p0 < 0xE0) ∧ (sz = 3 → 0xE0 ≤ p0 ∧ p0 < 0xF0 ∧ (p0 = 0xE0 → 0xA0 ≤ lo)) ∧
    (sz = 4 → 0xF0 ≤ p0 ∧ (p0 = 0xF0 → 0x90 ≤ lo)) := by
  have := leadAgrees_all p0
  simp only [leadAgrees, h, Bool.and_eq_true, decide_eq_true_eq] at this
  exact ⟨this.1.1.2, this.1.2, this.2⟩

theorem lead_none_iff (p0 : Nat) : lead p0 = none ↔ p0 < 0xC2 ∨ 0xF4 < p0 := by
  unfold lead
  constructor
  · intro h
    split_ifs at h; omega
  · intro h
    repeat (first | rw [if_neg (by omega)] | rfl)

theorem DecodeRune_cons_none (p0 : Nat) (rest : List Nat) (h : lead p0 = none) :
    DecodeRune (p0 :: rest) = (if 0x80 ≤ p0 then RuneError else p0, 1) := by
  obtain ⟨h1, h2⟩ := first_of_lead_none p0 h
  unfold DecodeRune
  simp only [List.length_cons, List.getD_cons_zero]
  rw [if_neg (by omega), if_pos h1]
  by_cases h3 : 0x80 ≤ p0
  · rw [if_pos (h2.2 h3), if_pos h3]
  · rw [if_neg (fun hh => h3 (h2.1 hh)), if_neg h3]

theorem DecodeRune_cons_some (p0 sz lo hi : Nat) (rest : List Nat)
    (h : lead p0 = some (sz, lo, hi)) :
    DecodeRune (p0 :: rest) = decodeWith sz lo hi p0 rest := by
  obtain ⟨h1, h2, h3, -⟩ := first_of_lead_some p0 sz lo hi h
  unfold DecodeRune decodeWith
  simp only [List.length_cons, List.getD_cons_zero, List.getD_cons_succ]
  rw [if_neg (by omega), if_neg (by omega), h2, h3]

theorem DecodeRune_nil : DecodeRune [] = (RuneError, 0) := by
  simp [DecodeRune]

theorem decodeWith_cases (sz lo hi p0 : Nat) (rest : List Nat)
    (hsz : sz = 2 ∨ sz = 3 ∨ sz = 4) :
    decodeWith sz lo hi p0 rest = (RuneError, 1) ∨
    (∃ b q, sz = 2 ∧ rest = b :: q ∧ lo ≤ b ∧ b ≤ hi ∧
      decodeWith sz lo hi p0 rest = (((p0 &&& mask2) <<< 6) ||| (b &&& maskx), 2)) ∨
    (∃ b c q, sz = 3 ∧ rest = b :: c :: q ∧ lo ≤ b ∧ b ≤ hi ∧ 0x80 ≤ c ∧ c ≤ 0xBF ∧
      decodeWith sz lo hi p0 rest =
        (((p0 &&& mask3) <<< 12) ||| ((b &&& maskx) <<< 6) ||| (c &&& maskx), 3)) ∨
    (∃ b c d q, sz = 4 ∧ rest = b :: c :: d :: q ∧ lo ≤ b ∧ b ≤ hi ∧ 0x80 ≤ c ∧ c ≤ 0xBF ∧
      0x80 ≤ d ∧ d ≤ 0xBF ∧
      decodeWith sz lo hi p0 rest =
        (((p0 &&& mask4) <<< 18) ||| ((b &&& maskx) <<< 12) ||| ((c &&& maskx) <<< 6)
          ||| (d &&& maskx), 4)) := by
  unfold decodeWith
  simp only [locb, hicb]
  by_cases h1 : rest.length + 1 < sz
  · left; rw [if_pos h1]
  rw [if_neg h1]
  rcases rest with _ | ⟨b, rest⟩
  · simp at h1; omega
  simp only [List.getD_cons_zero, List.getD_cons_succ]
  by_cases h2 : b < lo ∨ hi < b
  · left; rw [if_pos h2]
  rw [if_neg h2]
  by_cases h3 : sz ≤ 2
  · right; left
    rw [if_pos h3]
    exact ⟨b, rest, by omega, rfl, by omega, by omega, rfl⟩
  rw [if_neg h3]
  rcases rest with _ | ⟨c, rest⟩
  · simp at h1; omega
  simp only [List.getD_cons_zero, List.getD_cons_succ]
  by_cases h4 : c < 128 ∨ 191 < c
  · left; rw [if_pos h4]
  rw [if_neg h4]
  by_cases h5 : sz ≤ 3
  · right; right; left
    rw [if_pos h5]
    exact ⟨b, c, rest, by omega, rfl, by omega, by omega, by omega, by omega, rfl⟩
  rw [if_neg h5]
  rcases rest with _ | ⟨d, rest⟩
  · simp at h1; omega
  simp only [List.getD_cons_zero, List.getD_cons_succ]
  by_cases h6 : d < 128 ∨ 191 < d
  · left; rw [if_pos h6]
  rw [if_neg h6]
  right; right; right
  exact ⟨b, c, d, rest, by omega, rfl, by omega, by omega, by omega, by omega, by omega,
    by omega, rfl⟩

/-- The shape of every result of `DecodeRune` on a non-empty input: an error of
width one, or a valid encoding at the front of the input, of which the result
is the decoding. -/
theorem DecodeRune_cases (p : List Nat) (hp : p ≠ []) :
    DecodeRune p = (RuneError, 1) ∨
    ∃ e q, p = e ++ q ∧ validEnc e = true ∧ (DecodeRune p).2 = e.length ∧
      ∀ q2, DecodeRune (e ++ q2) = DecodeRune p := by
  rcases p with _ | ⟨a, rest⟩
  · exact absurd rfl hp
  cases hl : lead a with
  | none =>
    by_cases ha : 0x80 ≤ a
    · left
      rw [DecodeRune_cons_none a rest hl, if_pos ha]
    · right
      refine ⟨[a], rest, rfl, by simp [validEnc]; omega, ?_, ?_⟩
      · rw [DecodeRune_cons_none a rest hl]; rfl
      · intro q2
        rw [DecodeRune_cons_none a rest hl]
        exact DecodeRune_cons_none a q2 hl
  | some v =>
    obtain ⟨sz, lo, hi⟩ := v
    obtain ⟨-, -, -, hsz, -⟩ := first_of_lead_some a sz lo hi hl
    rw [DecodeRune_cons_some a sz lo hi rest hl]
    rcases decodeWith_cases sz lo hi a rest hsz with h | ⟨b, q, h1, h2, h3, h4, h5⟩ |
      ⟨b, c, q, h1, h2, h3, h4, h5, h6, h7⟩ | ⟨b, c, d, q, h1, h2, h3, h4, h5, h6, h7, h8, h9⟩
    · left; exact h
    · right
      subst h2
      refine ⟨[a, b], q, rfl, by simp [validEnc, hl, h1, h3, h4], by rw [h5]; rfl, ?_⟩
      intro q2
      show DecodeRune (a :: ([b] ++ q2)) = _
      rw [DecodeRune_cons_some a sz lo hi _ hl, h5]
      subst h1
      unfold decodeWith
      simp only [List.singleton_append, List.length_cons, List.getD_cons_zero]
      rw [if_neg (by omega), if_neg (by omega), if_pos (le_refl 2)]
    · right
      subst h2
      refine ⟨[a, b, c], q, rfl, by simp [validEnc, hl, h1, h3, h4, h5, h6], by rw [h7]; rfl, ?_⟩
      intro q2
      show DecodeRune (a :: ([b, c] ++ q2)) = _
      rw [DecodeRune_cons_some a sz lo hi _ hl, h7]
      subst h1
      unfold decodeWith
      simp only [List.cons_append, List.nil_append, List.length_cons, List.getD_cons_zero,
        List.getD_cons_succ, locb, hicb]
      rw [if_neg (by omega), if_neg (by omega), if_neg (by omega), if_neg (by omega),
        if_pos (le_refl 3)]
    · right
      subst h2
      refine ⟨[a, b, c, d], q, rfl, by simp [validEnc, hl, h1, h3, h4, h5, h6, h7, h8],
        by rw [h9]; rfl, ?_⟩
      intro q2
      show DecodeRune (a :: ([b, c, d] ++ q2)) = _
      rw [DecodeRune_cons_some a sz lo hi _ hl, h9]
      subst h1
      unfold decodeWith
      simp only [List.cons_append, List.nil_append, List.length_cons, List.getD_cons_zero,
        List.getD_cons_succ, locb, hicb]
      rw [if_neg (by omega), if_neg (by omega), if_neg (by omega), if_neg (by omega),
        if_neg (by omega), if_neg (by omega)]

theorem validEnc_ne_nil (e : List Nat) (h : validEnc e = true) : e ≠ [] := by
  rintro rfl
  simp [validEnc] at h

/-- A valid encoding is one ASCII byte, or a lead byte in 0xC2..0xF4 followed by
one to three continuation bytes (0x80..0xBF). -/
theorem validEnc_shape (e : List Nat) (h : validEnc e = true) :
    ∃ a rest, e = a :: rest ∧ (∀ c ∈ rest, 0x80 ≤ c ∧ c ≤ 0xBF) ∧ rest.length ≤ 3 ∧
      ((a < 0x80 ∧ rest = []) ∨ (0xC2 ≤ a ∧ a ≤ 0xF4 ∧ rest ≠ [])) := by
  rcases e with _ | ⟨a, _ | ⟨b, rest⟩⟩
  · simp [validEnc] at h
  · refine ⟨a, [], rfl, by simp, by simp, Or.inl ⟨?_, rfl⟩⟩
    simpa [validEnc] using h
  · refine ⟨a, b :: rest, rfl, ?_⟩
    cases hl : lead a with
    | none => simp [validEnc, hl] at h
    | some v =>
      obtain ⟨sz, lo, hi⟩ := v
      obtain ⟨-, -, -, hsz, hlo, hhi, ha1, ha2⟩ := first_of_lead_some a sz lo hi hl
      simp only [validEnc, hl, Bool.and_eq_true, decide_eq_true_eq, List.all_eq_true] at h
      obtain ⟨⟨h1, h2⟩, h3⟩ := h
      refine ⟨?_, ?_, Or.inr ⟨ha1, ha2, by simp⟩⟩
      · intro c hc
        rcases List.mem_cons.1 hc with rfl | hc
        · omega
        · exact h3 c hc
      · simp only [List.length_cons]; omega

theorem DecodeRune_width (p : List Nat) (hp : p ≠ []) :
    1 ≤ (DecodeRune p).2 ∧ (DecodeRune p).2 ≤ p.length := by
  rcases DecodeRune_cases p hp with h | ⟨e, q, h1, h2, h3, -⟩
  · rw [h]
    rcases p with _ | ⟨a, rest⟩
    · exact absurd rfl hp
    · simp
  · have := validEnc_ne_nil e h2
    have hl : 0 < e.length := List.length_pos.2 this
    rw [h3, h1, List.length_append]
    omega

/-- Bytes appended to `t` do not change what `DecodeRune` reads, when the first
of them is not a continuation byte. -/
theorem DecodeRune_append (t u : List Nat) (ht : t ≠ [])
    (hu : ∀ b, u.head? = some b → b < 0x80 ∨ 0xBF < b) :
    DecodeRune (t ++ u) = DecodeRune t := by
  rcases DecodeRune_cases t ht with h | ⟨e, q, h1, -, -, h4⟩
  · rw [h]
    rcases DecodeRune_cases (t ++ u) (by simp [ht]) with h2 | ⟨e2, q2, h5, h6, -, h8⟩
    · exact h2
    · rcases List.append_eq_append_iff.1 h5 with ⟨a2, h9, h10⟩ | ⟨c2, h9, -⟩
      · -- e2 = t ++ a2 : the valid encoding reaches into u
        rcases a2 with _ | ⟨x, a2⟩
        · rw [← h8 [], h9, List.append_nil, List.append_nil]; exact h
        · exfalso
          obtain ⟨a, rest, h11, h12, -, -⟩ := validEnc_shape e2 h6
          rcases t with _ | ⟨t0, t⟩
          · exact ht rfl
          · rw [h9, List.cons_append] at h11
            injection h11 with _ h13
            have hx : x ∈ rest := by rw [← h13]; simp
            have := h12 x hx
            have hux : u.head? = some x := by rw [h10]; rfl
            have := hu x hux
            omega
      · rw [← h8 c2, ← h9]; exact h
  · rw [h1, List.append_assoc, h4, ← h1, ← h4 q, ← h1]

set_option maxRecDepth 100000 in
theorem RuneStart_lt : ∀ b, b < 256 → RuneStart b = decide (b < 0x80 ∨ 0xBF < b) := by
  decide

theorem IsSpace_RuneError : unicode.IsSpace RuneError = false := by decide

theorem backToRuneStart_le (p : List Nat) (lim : Int) (fuel : Nat) (start : Int) :
    backToRuneStart p lim fuel start ≤ start := by
  induction fuel generalizing start with
  | zero => simp [backToRuneStart]
  | succ n ih =>
    unfold backToRuneStart
    split_ifs
    · exact le_refl _
    · have := ih (start - 1); omega
    · exact le_refl _

/-- The backward scan stops at `target` when that byte starts a rune and the
bytes between it and `start` do not. -/
theorem backToRuneStart_eq (p : List Nat) (lim : Int) (target : Nat) (fuel : Nat) (start : Int)
    (h1 : lim ≤ target) (h2 : (target : Int) ≤ start) (h3 : start - target < fuel)
    (h4 : RuneStart (p.getD target 0) = true)
    (h5 : ∀ j : Nat, target < j → (j : Int) ≤ start → RuneStart (p.getD j 0) = false) :
    backToRuneStart p lim fuel start = target := by
  induction fuel generalizing start with
  | zero => omega
  | succ n ih =>
    unfold backToRuneStart
    rw [if_pos (by omega)]
    by_cases hs : start = target
    · rw [hs, Int.toNat_ofNat, if_pos h4]
    · have h6 : RuneStart (p.getD start.toNat 0) = false := h5 start.toNat (by omega) (by omega)
      rw [h6]
      simp only [Bool.false_eq_true, if_false]
      exact ih (start - 1) (by omega) (by omega) (fun j hj1 hj2 => h5 j hj1 (by omega))

/-- The shape of every result of `DecodeLastRune` on a non-empty input. -/
theorem DecodeLastRune_cases (q : List Nat) (b : Nat) :
    (b < 0x80 ∧ DecodeLastRune (q ++ [b]) = (b, 1)) ∨
    (0x80 ≤ b ∧ (DecodeLastRune (q ++ [b]) = (RuneError, 1) ∨
      ∃ start, start < (q ++ [b]).length ∧
        start + (DecodeRune ((q ++ [b]).drop start)).2 = (q ++ [b]).length ∧
        DecodeLastRune (q ++ [b]) = DecodeRune ((q ++ [b]).drop start))) := by
  unfold DecodeLastRune
  simp only [List.length_append, List.length_singleton, RuneSelf, UTFMax]
  rw [if_neg (by omega)]
  have hb : (q ++ [b]).getD ((((q.length + 1 : Nat) : Int) - 1).toNat) 0 = b := by
    have : (((q.length + 1 : Nat) : Int) - 1).toNat = q.length := by omega
    rw [this, List.getD_append_right _ _ _ _ (le_refl _)]
    simp
  rw [hb]
  by_cases h : b < 128
  · left; rw [if_pos h]; exact ⟨h, rfl⟩
  · right
    rw [if_neg h]
    refine ⟨by omega, ?_⟩
    generalize hlim : (if ((q.length + 1 : Nat) : Int) - (4 : Nat) < 0 then (0 : Int)
      else ((q.length + 1 : Nat) : Int) - (4 : Nat)) = lim
    have hle := backToRuneStart_le (q ++ [b]) lim (4 + 1) (((q.length + 1 : Nat) : Int) - 1 - 1)
    generalize backToRuneStart (q ++ [b]) lim (4 + 1) (((q.length + 1 : Nat) : Int) - 1 - 1) = s0
      at hle ⊢
    generalize hst : (if s0 < 0 then (0 : Int) else s0) = st
    have hst1 : 0 ≤ st := by rw [← hst]; split_ifs <;> omega
    have hst2 : st ≤ (q.length : Int) - 1 ∨ st = 0 := by rw [← hst]; split_ifs <;> omega
    by_cases hne : st + ((DecodeRune (List.drop st.toNat (q ++ [b]))).2 : Int) ≠
        ((q.length + 1 : Nat) : Int)
    · left; rw [if_pos hne]
    · right
      rw [if_neg hne]
      refine ⟨st.toNat, by omega, ?_, rfl⟩
      push_neg at hne
      omega

theorem DecodeLastRune_nil : DecodeLastRune [] = (RuneError, 0) := by
  simp [DecodeLastRune]

/-- On a valid encoding `DecodeRune` consumes the whole of it. -/
theorem DecodeRune_valid_width (e : List Nat) (h : validEnc e = true) :
    (DecodeRune e).2 = e.length := by
  rcases e with _ | ⟨a, _ | ⟨b, rest⟩⟩
  · simp [validEnc] at h
  · have ha : a < 0x80 := by simpa [validEnc] using h
    rw [DecodeRune_cons_none a [] ((lead_none_iff a).2 (by omega))]
    rfl
  · cases hl : lead a with
    | none => simp [validEnc, hl] at h
    | some v =>
      obtain ⟨sz, lo, hi⟩ := v
      obtain ⟨-, -, -, hsz, -⟩ := first_of_lead_some a sz lo hi hl
      simp only [validEnc, hl, Bool.and_eq_true, decide_eq_true_eq, List.all_eq_true] at h
      obtain ⟨⟨h1, h2⟩, h3⟩ := h
      rw [DecodeRune_cons_some a sz lo hi _ hl]
      unfold decodeWith
      simp only [List.length_cons, List.getD_cons_zero, List.getD_cons_succ, locb, hicb]
      rw [if_neg (by omega), if_neg (by omega)]
      rcases rest with _ | ⟨c, _ | ⟨d, rest⟩⟩
      · rw [if_pos (by simp at h1; omega)]; rfl
      · have hc := h3 c (by simp)
        simp only [List.length_cons, List.length_nil] at h1
        simp only [List.getD_cons_zero]
        rw [if_neg (by omega), if_neg (by omega), if_pos (by omega)]; rfl
      · have hc := h3 c (by simp)
        have hd := h3 d (by simp)
        simp only [List.length_cons] at h1
        have : rest = [] := by
          apply List.eq_nil_of_length_eq_zero; omega
        subst this
        simp only [List.getD_cons_zero, List.getD_cons_succ]
        rw [if_neg (by omega), if_neg (by omega), if_neg (by omega), if_neg (by omega)]; rfl

/-- The last rune of a sequence that ends with a valid encoding is the rune of
that encoding. -/
theorem DecodeLastRune_append_valid (q e : List Nat) (h : validEnc e = true) :
    DecodeLastRune (q ++ e) = DecodeRune e := by
  obtain ⟨a, rest, rfl, h1, h2, h3⟩ := validEnc_shape e h
  rcases h3 with ⟨ha, rfl⟩ | ⟨ha1, ha2, hrest⟩
  · rcases DecodeLastRune_cases q a with ⟨-, h4⟩ | ⟨h4, -⟩
    · rw [h4, DecodeRune_cons_none a [] ((lead_none_iff a).2 (by omega)), if_neg (by omega)]
    · omega
  · have hw := DecodeRune_valid_width _ h
    have hlen : 0 < rest.length := List.length_pos.2 hrest
    unfold DecodeLastRune
    simp only [List.length_append, List.length_cons, RuneSelf, UTFMax]
    rw [if_neg (by omega)]
    have hget : ∀ j : Nat, q.length < j → j ≤ q.length + rest.length →
        0x80 ≤ (q ++ a :: rest).getD j 0 ∧ (q ++ a :: rest).getD j 0 ≤ 0xBF := by
      intro j hj1 hj2
      rw [List.getD_append_right _ _ _ _ (by omega)]
      obtain ⟨k, hk⟩ : ∃ k, j - q.length = k + 1 := ⟨j - q.length - 1, by omega⟩
      rw [hk, List.getD_cons_succ, List.getD_eq_getElem _ _ (by omega)]
      exact h1 _ (List.getElem_mem _)
    have hlast := hget (q.length + rest.length) (by omega) (le_refl _)
    have hidx : (((q.length + (rest.length + 1) : Nat) : Int) - 1).toNat
        = q.length + rest.length := by omega
    rw [hidx, if_neg (by omega)]
    have hback : backToRuneStart (q ++ a :: rest)
        (if ((q.length + (rest.length + 1) : Nat) : Int) - (4 : Nat) < 0 then 0
          else ((q.length + (rest.length + 1) : Nat) : Int) - (4 : Nat)) (4 + 1)
        (((q.length + (rest.length + 1) : Nat) : Int) - 1 - 1) = (q.length : Nat) := by
      apply backToRuneStart_eq
      · split_ifs <;> omega
      · omega
      · omega
      · rw [List.getD_append_right _ _ _ _ (le_refl _), Nat.sub_self, List.getD_cons_zero,
          RuneStart_lt a (by omega)]
        exact decide_eq_true (Or.inr (by omega))
      · intro j hj1 hj2
        have := hget j hj1 (by omega)
        rw [RuneStart_lt _ (by omega)]
        exact decide_eq_false (by omega)
    rw [hback]
    have hif : (if (q.length : Int) < 0 then (0 : Int) else (q.length : Int)) = q.length :=
      if_neg (by omega)
    rw [hif, Int.toNat_ofNat, List.drop_left, hw]
    rw [if_neg (not_not.2 (by simp only [List.length_cons]; omega))]

/-- The backward scan of `DecodeLastRune` makes at most `start - lim + 1` rounds:
fuel beyond that does not change its result. -/
theorem backToRuneStart_fuel (p : List Nat) (lim : Int) (fuel fuel2 : Nat) (start : Int)
    (h1 : start - lim + 1 ≤ fuel) (h2 : start - lim + 1 ≤ fuel2) :
    backToRuneStart p lim fuel start = backToRuneStart p lim fuel2 start := by
  induction fuel generalizing start fuel2 with
  | zero =>
    cases fuel2 with
    | zero => rfl
    | succ m => rw [backToRuneStart, backToRuneStart, if_neg (by omega)]
  | succ n ih =>
    cases fuel2 with
    | zero => rw [backToRuneStart, backToRuneStart, if_neg (by omega)]
    | succ m =>
      rw [backToRuneStart, backToRuneStart]
      by_cases h : start ≥ lim
      · rw [if_pos h, if_pos h, ih m (start - 1) (by omega) (by omega)]
      · rw [if_neg h, if_neg h]

/-- The fuel that `DecodeLastRune` gives the backward scan is enough: the scan
starts at `len(p) - 2` and stops at `lim ≥ len(p) - UTFMax`. -/
theorem DecodeLastRune_fuel (p : List Nat) (fuel : Nat) (h : UTFMax + 1 ≤ fuel) :
    backToRuneStart p (if (p.length : Int) - UTFMax < 0 then 0 else (p.length : Int) - UTFMax)
        (UTFMax + 1) ((p.length : Int) - 1 - 1) =
      backToRuneStart p (if (p.length : Int) - UTFMax < 0 then 0 else (p.length : Int) - UTFMax)
        fuel ((p.length : Int) - 1 - 1) := by
  simp only [UTFMax] at h ⊢
  apply backToRuneStart_fuel
  · split_ifs <;> omega
  · split_ifs <;> omega

end utf8

/-! ## Theorems: bytes
White-space characters, the loops of `indexFunc` and `lastIndexFunc`, and the
trimming functions: `TrimSpace` returns the part of its input between leading
and trailing white space. -/

namespace bytes

open utf8 unicode

theorem spaceSeq_iff (e : List Nat) :
    spaceSeq e = true ↔ e ≠ [] ∧ (DecodeRune e).2 = e.length ∧ IsSpace (DecodeRune e).1 = true := by
  simp [spaceSeq, and_assoc]

theorem spaceSeq_valid (e : List Nat) (h : spaceSeq e = true) : validEnc e = true := by
  obtain ⟨h1, h2, h3⟩ := (spaceSeq_iff e).1 h
  rcases DecodeRune_cases e h1 with h4 | ⟨e2, q, h5, h6, h7, -⟩
  · rw [h4, IsSpace_RuneError] at h3; exact absurd h3 (by decide)
  · have : q = [] := by
      have := congrArg List.length h5
      rw [List.length_append] at this
      exact List.eq_nil_of_length_eq_zero (by omega)
    subst this
    rw [List.append_nil] at h5
    rw [h5]; exact h6

/-- A white-space character at the front of `p` is what `DecodeRune` reads. -/
theorem DecodeRune_spaceSeq (e q : List Nat) (h : spaceSeq e = true) :
    DecodeRune (e ++ q) = DecodeRune e := by
  obtain ⟨h1, h2, h3⟩ := (spaceSeq_iff e).1 h
  rcases DecodeRune_cases e h1 with h4 | ⟨e2, q2, h5, h6, h7, h8⟩
  · rw [h4, IsSpace_RuneError] at h3; exact absurd h3 (by decide)
  · have : q2 = [] := by
      have := congrArg List.length h5
      rw [List.length_append] at this
      exact List.eq_nil_of_length_eq_zero (by omega)
    subst this
    rw [List.append_nil] at h5
    subst h5
    exact h8 q

/-- When the first rune of `p` is white space, `p` begins with a white-space
character of the width `DecodeRune` reports. -/
theorem spaceSeq_of_DecodeRune (p : List Nat) (h : IsSpace (DecodeRune p).1 = true) :
    ∃ e q, p = e ++ q ∧ spaceSeq e = true ∧ (DecodeRune p).2 = e.length := by
  have hp : p ≠ [] := by
    rintro rfl
    rw [DecodeRune_nil, IsSpace_RuneError] at h; exact absurd h (by decide)
  rcases DecodeRune_cases p hp with h4 | ⟨e, q, h5, h6, h7, h8⟩
  · rw [h4, IsSpace_RuneError] at h; exact absurd h (by decide)
  · refine ⟨e, q, h5, ?_, h7⟩
    have h9 := h8 []
    rw [List.append_nil] at h9
    rw [spaceSeq_iff, h9]
    exact ⟨validEnc_ne_nil e h6, h7, h⟩

theorem spaceSeq_head (e : List Nat) (h : spaceSeq e = true) :
    ∀ b, e.head? = some b → b < 0x80 ∨ 0xBF < b := by
  obtain ⟨a, rest, rfl, -, -, h3⟩ := validEnc_shape e (spaceSeq_valid e h)
  intro b hb
  simp only [List.head?_cons, Option.some.injEq] at hb
  subst hb
  omega

theorem DecodeLastRune_spaceSeq (q e : List Nat) (h : spaceSeq e = true) :
    DecodeLastRune (q ++ e) = DecodeRune e :=
  DecodeLastRune_append_valid q e (spaceSeq_valid e h)

theorem DecodeLastRune_width (p : List Nat) (hp : p ≠ []) :
    1 ≤ (DecodeLastRune p).2 ∧ (DecodeLastRune p).2 ≤ p.length := by
  rcases List.eq_nil_or_concat p with h | ⟨q, b, rfl⟩
  · exact absurd h hp
  rw [List.concat_eq_append]
  rcases DecodeLastRune_cases q b with ⟨-, h1⟩ | ⟨-, h1 | ⟨start, h2, h3, h4⟩⟩
  · rw [h1]; simp
  · rw [h1]; simp
  · rw [h4]
    have := DecodeRune_width ((q ++ [b]).drop start) (by
      intro h5
      have := congrArg List.length h5
      simp only [List.length_drop, List.length_nil] at this
      omega)
    omega

/-- When the last rune of `p` is white space, `p` ends with a white-space
character of the width `DecodeLastRune` reports. -/
theorem spaceSeq_of_DecodeLastRune (p : List Nat) (h : IsSpace (DecodeLastRune p).1 = true) :
    ∃ q e, p = q ++ e ∧ spaceSeq e = true ∧ (DecodeLastRune p).2 = e.length := by
  rcases List.eq_nil_or_concat p with h0 | ⟨q, b, rfl⟩
  · subst h0
    rw [DecodeLastRune_nil, IsSpace_RuneError] at h; exact absurd h (by decide)
  rw [List.concat_eq_append] at h ⊢
  rcases DecodeLastRune_cases q b with ⟨hb, h1⟩ | ⟨-, h1 | ⟨start, h2, h3, h4⟩⟩
  · refine ⟨q, [b], rfl, ?_, by rw [h1]; rfl⟩
    rw [h1] at h
    rw [spaceSeq_iff, DecodeRune_cons_none b [] ((lead_none_iff b).2 (by omega)),
      if_neg (by omega)]
    exact ⟨by simp, rfl, h⟩
  · rw [h1, IsSpace_RuneError] at h; exact absurd h (by decide)
  · rw [h4] at h ⊢
    obtain ⟨e, q2, h5, h6, h7⟩ := spaceSeq_of_DecodeRune _ h
    have h8 : q2 = [] := by
      have := congrArg List.length h5
      rw [List.length_append, List.length_drop] at this
      exact List.eq_nil_of_length_eq_zero (by omega)
    subst h8
    rw [List.append_nil] at h5
    refine ⟨(q ++ [b]).take start, e, ?_, h6, h7⟩
    rw [← h5, List.take_append_drop]

/-- The ASCII shortcut of `indexFunc` agrees with `DecodeRune`. -/
theorem firstRune_eq (a : Nat) (rest : List Nat) :
    (if a ≥ RuneSelf then DecodeRune (a :: rest) else (a, 1)) = DecodeRune (a :: rest) := by
  by_cases h : a ≥ RuneSelf
  · rw [if_pos h]
  · rw [if_neg h]
    simp only [RuneSelf] at h
    rw [DecodeRune_cons_none a rest ((lead_none_iff a).2 (by omega)), if_neg (by omega)]

/-- One round of the loop of `indexFunc`. -/
theorem indexFuncLoop_step (s : List Nat) (f : Nat → Bool) (truth : Bool) (fuel start : Nat)
    (h : start < s.length) :
    indexFuncLoop s f truth (fuel + 1) start =
      if f (DecodeRune (s.drop start)).1 == truth then (start : Int)
      else indexFuncLoop s f truth fuel (start + (DecodeRune (s.drop start)).2) := by
  rw [indexFuncLoop, if_pos h]
  have h1 : s.drop start = s.getD start 0 :: s.drop (start + 1) := by
    rw [List.getD_eq_getElem _ _ h]
    exact List.drop_eq_getElem_cons h
  have h2 := firstRune_eq (s.getD start 0) (s.drop (start + 1))
  rw [← h1] at h2
  simp only [h2]

theorem indexFuncLoop_range (s : List Nat) (f : Nat → Bool) (truth : Bool) (fuel start : Nat) :
    indexFuncLoop s f truth fuel start = -1 ∨
      ((start : Int) ≤ indexFuncLoop s f truth fuel start ∧
        indexFuncLoop s f truth fuel start < s.length) := by
  induction fuel generalizing start with
  | zero => left; rfl
  | succ n ih =>
    by_cases h : start < s.length
    · rw [indexFuncLoop_step s f truth n start h]
      split_ifs
      · right; omega
      · rcases ih (start + (DecodeRune (s.drop start)).2) with h1 | h1
        · left; exact h1
        · right; omega
    · left; rw [indexFuncLoop, if_neg h]

/-- Fuel beyond the number of remaining bytes does not change the result. -/
theorem indexFuncLoop_fuel (s : List Nat) (f : Nat → Bool) (truth : Bool)
    (fuel fuel2 start : Nat) (h1 : s.length - start ≤ fuel) (h2 : s.length - start ≤ fuel2) :
    indexFuncLoop s f truth fuel start = indexFuncLoop s f truth fuel2 start := by
  induction fuel generalizing start fuel2 with
  | zero =>
    cases fuel2 with
    | zero => rfl
    | succ m => rw [indexFuncLoop, indexFuncLoop, if_neg (by omega)]
  | succ n ih =>
    cases fuel2 with
    | zero => rw [indexFuncLoop, indexFuncLoop, if_neg (by omega)]
    | succ m =>
      by_cases h : start < s.length
      · rw [indexFuncLoop_step s f truth n start h, indexFuncLoop_step s f truth m start h]
        have hw := DecodeRune_width (s.drop start) (by
          intro h5
          have := congrArg List.length h5
          simp only [List.length_drop, List.length_nil] at this
          omega)
        rw [ih m (start + (DecodeRune (s.drop start)).2) (by omega) (by omega)]
      · rw [indexFuncLoop, indexFuncLoop, if_neg h, if_neg h]

/-- The loop of `indexFunc` on `pre ++ s` from an index past `pre` is the loop
on `s`, with the result shifted by the length of `pre`. -/
theorem indexFuncLoop_append (pre s : List Nat) (f : Nat → Bool) (truth : Bool)
    (fuel k : Nat) :
    indexFuncLoop (pre ++ s) f truth fuel (pre.length + k) =
      if indexFuncLoop s f truth fuel k = -1 then -1
      else indexFuncLoop s f truth fuel k + pre.length := by
  induction fuel generalizing k with
  | zero => simp [indexFuncLoop]
  | succ n ih =>
    by_cases h : k < s.length
    · rw [indexFuncLoop_step _ f truth n _ (by rw [List.length_append]; omega),
        indexFuncLoop_step s f truth n k h, List.drop_append]
      by_cases hf : (f (DecodeRune (s.drop k)).1 == truth) = true
      · rw [if_pos hf, if_pos hf, if_neg (by omega)]
        push_cast; omega
      · rw [if_neg hf, if_neg hf, Nat.add_assoc, ih]
    · rw [indexFuncLoop, indexFuncLoop, if_neg h, if_neg (by rw [List.length_append]; omega)]
      simp

theorem TrimLeftFunc_nil (f : Nat → Bool) : TrimLeftFunc [] f = [] := by
  simp [TrimLeftFunc, indexFunc, indexFuncLoop]

/-- The function `TrimLeftFunc` removes a leading white-space character. -/
theorem TrimLeftFunc_spaceSeq (e q : List Nat) (h : spaceSeq e = true) :
    TrimLeftFunc (e ++ q) IsSpace = TrimLeftFunc q IsSpace := by
  obtain ⟨h1, h2, h3⟩ := (spaceSeq_iff e).1 h
  have hlen : 0 < e.length := List.length_pos.2 h1
  have hi : indexFunc (e ++ q) IsSpace false =
      if indexFunc q IsSpace false = -1 then -1 else indexFunc q IsSpace false + e.length := by
    unfold indexFunc
    obtain ⟨n, hn⟩ : ∃ n, (e ++ q).length = n + 1 :=
      ⟨(e ++ q).length - 1, by rw [List.length_append]; omega⟩
    rw [hn, indexFuncLoop_step _ _ _ n 0 (by omega), List.drop_zero, DecodeRune_spaceSeq e q h,
      h3, h2]
    simp only [Bool.true_eq_false, beq_iff_eq, if_false]
    have := indexFuncLoop_append e q IsSpace false n 0
    rw [Nat.add_zero] at this
    rw [Nat.zero_add, this]
    rw [List.length_append] at hn
    rw [indexFuncLoop_fuel q IsSpace false n q.length 0 (by omega) (by omega)]
  unfold TrimLeftFunc
  simp only [hi]
  rcases indexFuncLoop_range q IsSpace false q.length 0 with h4 | h4
  · have h5 : indexFunc q IsSpace false = -1 := h4
    rw [h5]; simp
  · have h5 : 0 ≤ indexFunc q IsSpace false := by
      have := h4.1; simpa [indexFunc] using this
    rw [if_neg (by omega), if_neg (by omega), if_neg (by omega)]
    have : (indexFunc q IsSpace false + (e.length : Int)).toNat
        = e.length + (indexFunc q IsSpace false).toNat := by omega
    rw [this, List.drop_append]

/-- The function `TrimLeftFunc` leaves alone an input whose first rune is not
white space. -/
theorem TrimLeftFunc_id (p : List Nat) (h : IsSpace (DecodeRune p).1 = false) :
    TrimLeftFunc p IsSpace = p := by
  rcases p with _ | ⟨a, rest⟩
  · exact TrimLeftFunc_nil _
  · unfold TrimLeftFunc indexFunc
    rw [List.length_cons, indexFuncLoop_step _ _ _ _ 0 (by simp), List.drop_zero, h]
    simp

/-- One round of the loop of `lastIndexFunc`, at the end of `q ++ [b]`. -/
theorem lastIndexFuncLoop_step (q : List Nat) (b : Nat) (x : List Nat) (f : Nat → Bool)
    (truth : Bool) (fuel : Nat) :
    lastIndexFuncLoop (q ++ [b] ++ x) f truth (fuel + 1) (q.length + 1) =
      if f (DecodeLastRune (q ++ [b])).1 == truth then
        ((q.length + 1 - (DecodeLastRune (q ++ [b])).2 : Nat) : Int)
      else lastIndexFuncLoop (q ++ [b] ++ x) f truth fuel
        (q.length + 1 - (DecodeLastRune (q ++ [b])).2) := by
  rw [lastIndexFuncLoop, if_pos (by omega)]
  have h1 : (q ++ [b] ++ x).getD (q.length + 1 - 1) 0 = b := by
    rw [Nat.add_sub_cancel, List.append_assoc, List.getD_append_right _ _ _ _ (le_refl _)]
    simp
  have h2 : (q ++ [b] ++ x).take (q.length + 1) = q ++ [b] := by
    have : q.length + 1 = (q ++ [b]).length := by simp
    rw [this, List.take_left]
  have h3 : (if b ≥ RuneSelf then DecodeLastRune (q ++ [b]) else (b, 1))
      = DecodeLastRune (q ++ [b]) := by
    by_cases hb : b ≥ RuneSelf
    · rw [if_pos hb]
    · rw [if_neg hb]
      simp only [RuneSelf] at hb
      rcases DecodeLastRune_cases q b with ⟨-, h4⟩ | ⟨h4, -⟩
      · exact h4.symm
      · omega
  simp only [h1, h2, h3]

theorem lastIndexFuncLoop_zero (s : List Nat) (f : Nat → Bool) (truth : Bool) (fuel : Nat) :
    lastIndexFuncLoop s f truth fuel 0 = -1 := by
  cases fuel with
  | zero => rfl
  | succ n => rw [lastIndexFuncLoop, if_neg (by omega)]

/-- A non-empty initial segment of `s`, split as in `lastIndexFuncLoop_step`. -/
theorem take_split (s : List Nat) (i : Nat) (h1 : 0 < i) (h2 : i ≤ s.length) :
    ∃ q b x, s = q ++ [b] ++ x ∧ q.length + 1 = i := by
  have h3 : s.take i ≠ [] := by
    intro h
    have := congrArg List.length h
    simp only [List.length_take, List.length_nil] at this
    omega
  rcases List.eq_nil_or_concat (s.take i) with h | ⟨q, b, h⟩
  · exact absurd h h3
  · refine ⟨q, b, s.drop i, ?_, ?_⟩
    · rw [← List.concat_eq_append, ← h, List.take_append_drop]
    · have := congrArg List.length h
      simp only [List.length_take, List.concat_eq_append, List.length_append,
        List.length_singleton] at this
      omega

theorem lastIndexFuncLoop_range (s : List Nat) (f : Nat → Bool) (truth : Bool) (fuel i : Nat)
    (hi : i ≤ s.length) :
    lastIndexFuncLoop s f truth fuel i = -1 ∨
      (0 ≤ lastIndexFuncLoop s f truth fuel i ∧ lastIndexFuncLoop s f truth fuel i < i) := by
  induction fuel generalizing i with
  | zero => left; rfl
  | succ n ih =>
    by_cases h : 0 < i
    · obtain ⟨q, b, x, rfl, rfl⟩ := take_split s i h hi
      rw [lastIndexFuncLoop_step]
      have hw := DecodeLastRune_width (q ++ [b]) (by simp)
      split_ifs
      · right; omega
      · rcases ih (q.length + 1 - (DecodeLastRune (q ++ [b])).2) (by omega) with h1 | h1
        · left; exact h1
        · right; omega
    · have : i = 0 := by omega
      subst this
      left; exact lastIndexFuncLoop_zero _ _ _ _

/-- Fuel beyond the index does not change the result. -/
theorem lastIndexFuncLoop_fuel (s : List Nat) (f : Nat → Bool) (truth : Bool)
    (fuel fuel2 i : Nat) (hi : i ≤ s.length) (h1 : i ≤ fuel) (h2 : i ≤ fuel2) :
    lastIndexFuncLoop s f truth fuel i = lastIndexFuncLoop s f truth fuel2 i := by
  induction fuel generalizing i fuel2 with
  | zero =>
    have : i = 0 := by omega
    subst this
    rw [lastIndexFuncLoop_zero, lastIndexFuncLoop_zero]
  | succ n ih =>
    cases fuel2 with
    | zero =>
      have : i = 0 := by omega
      subst this
      rw [lastIndexFuncLoop_zero, lastIndexFuncLoop_zero]
    | succ m =>
      by_cases h : 0 < i
      · obtain ⟨q, b, x, rfl, rfl⟩ := take_split s i h hi
        rw [lastIndexFuncLoop_step, lastIndexFuncLoop_step]
        have hw := DecodeLastRune_width (q ++ [b]) (by simp)
        rw [ih m (q.length + 1 - (DecodeLastRune (q ++ [b])).2) (by omega) (by omega) (by omega)]
      · have : i = 0 := by omega
        subst this
        rw [lastIndexFuncLoop_zero, lastIndexFuncLoop_zero]

/-- The loop of `lastIndexFunc` below the index `i` does not read past `i`. -/
theorem lastIndexFuncLoop_append (s x : List Nat) (f : Nat → Bool) (truth : Bool)
    (fuel i : Nat) (hi : i ≤ s.length) :
    lastIndexFuncLoop (s ++ x) f truth fuel i = lastIndexFuncLoop s f truth fuel i := by
  induction fuel generalizing i with
  | zero => rfl
  | succ n ih =>
    by_cases h : 0 < i
    · obtain ⟨q, b, y, rfl, rfl⟩ := take_split s i h hi
      have hw := DecodeLastRune_width (q ++ [b]) (by simp)
      rw [List.append_assoc (q ++ [b]) y x, lastIndexFuncLoop_step, lastIndexFuncLoop_step,
        ← List.append_assoc (q ++ [b]) y x,
        ih (q.length + 1 - (DecodeLastRune (q ++ [b])).2) (by omega)]
    · have : i = 0 := by omega
      subst this
      rw [lastIndexFuncLoop_zero, lastIndexFuncLoop_zero]

theorem TrimRightFunc_nil (f : Nat → Bool) : TrimRightFunc [] f = [] := by
  simp [TrimRightFunc]

theorem drop_ne_nil (s : List Nat) (j : Nat) (h : j < s.length) : s.drop j ≠ [] := by
  intro h5
  have := congrArg List.length h5
  simp only [List.length_drop, List.length_nil] at this
  omega

/-- The function `TrimRightFunc` removes a trailing white-space character. -/
theorem TrimRightFunc_spaceSeq (q e : List Nat) (h : spaceSeq e = true) :
    TrimRightFunc (q ++ e) IsSpace = TrimRightFunc q IsSpace := by
  obtain ⟨h1, h2, h3⟩ := (spaceSeq_iff e).1 h
  have hlen : 0 < e.length := List.length_pos.2 h1
  have hi : lastIndexFunc (q ++ e) IsSpace false = lastIndexFunc q IsSpace false := by
    unfold lastIndexFunc
    obtain ⟨q2, b, x, h4, h5⟩ := take_split (q ++ e) (q ++ e).length
      (by rw [List.length_append]; omega) (le_refl _)
    have hx : x = [] := by
      have := congrArg List.length h4
      simp only [List.length_append, List.length_singleton] at this h5
      exact List.eq_nil_of_length_eq_zero (by omega)
    subst hx
    rw [List.append_nil] at h4
    have h6 : lastIndexFuncLoop (q ++ e) IsSpace false (q ++ e).length (q ++ e).length
        = lastIndexFuncLoop (q2 ++ [b] ++ []) IsSpace false (q2.length + 1) (q2.length + 1) := by
      rw [List.append_nil, ← h4, h5]
    rw [h6, lastIndexFuncLoop_step, List.append_nil, ← h4, DecodeLastRune_spaceSeq q e h, h3, h2]
    simp only [Bool.true_eq_false, beq_iff_eq, if_false]
    have h7 : q2.length + 1 - e.length = q.length := by
      rw [h5, List.length_append]; omega
    rw [h7, lastIndexFuncLoop_append q e _ _ _ _ (le_refl _)]
    rw [List.length_append] at h5
    exact lastIndexFuncLoop_fuel q _ _ _ _ _ (le_refl _) (by omega) (le_refl _)
  unfold TrimRightFunc
  simp only [hi]
  rcases lastIndexFuncLoop_range q IsSpace false q.length q.length (le_refl _) with h4 | h4
  · have h5 : lastIndexFunc q IsSpace false = -1 := h4
    rw [h5]; simp
  · have h5 : 0 ≤ lastIndexFunc q IsSpace false ∧ lastIndexFunc q IsSpace false < q.length := h4
    generalize lastIndexFunc q IsSpace false = j at h5
    obtain ⟨k, rfl⟩ : ∃ k : Nat, j = k := ⟨j.toNat, by omega⟩
    have hk : k < q.length := by omega
    simp only [Int.toNat_ofNat]
    have h6 : (q ++ e).getD k 0 = q.getD k 0 := List.getD_append _ _ _ _ hk
    have h7 : (q ++ e).drop k = q.drop k ++ e := List.drop_append_of_le_length (by omega)
    have h8 : DecodeRune (q.drop k ++ e) = DecodeRune (q.drop k) :=
      DecodeRune_append _ _ (drop_ne_nil q k hk) (spaceSeq_head e h)
    rw [h6, h7, h8]
    have hw := DecodeRune_width (q.drop k) (drop_ne_nil q k hk)
    rw [List.length_drop] at hw
    apply List.take_append_of_le_length
    split_ifs <;> omega

/-- The function `TrimRightFunc` leaves alone an input whose last rune is not
white space. -/
theorem TrimRightFunc_id (p : List Nat) (h : IsSpace (DecodeLastRune p).1 = false) :
    TrimRightFunc p IsSpace = p := by
  rcases List.eq_nil_or_concat p with h0 | ⟨q, b, rfl⟩
  · subst h0; exact TrimRightFunc_nil _
  rw [List.concat_eq_append] at h ⊢
  have hi : lastIndexFunc (q ++ [b]) IsSpace false
      = ((q.length + 1 - (DecodeLastRune (q ++ [b])).2 : Nat) : Int) := by
    unfold lastIndexFunc
    have h6 : lastIndexFuncLoop (q ++ [b]) IsSpace false (q ++ [b]).length (q ++ [b]).length
        = lastIndexFuncLoop (q ++ [b] ++ []) IsSpace false (q.length + 1) (q.length + 1) := by
      simp
    rw [h6, lastIndexFuncLoop_step, h]
    simp
  unfold TrimRightFunc
  simp only [hi, Int.toNat_ofNat]
  apply List.take_of_length_le
  simp only [List.length_append, List.length_singleton]
  rcases DecodeLastRune_cases q b with ⟨hb, h1⟩ | ⟨hb, h1 | ⟨start, h2, h3, h4⟩⟩
  · rw [h1]
    simp only [Nat.add_sub_cancel]
    rw [List.getD_append_right _ _ _ _ (le_refl _)]
    simp only [Nat.sub_self, List.getD_cons_zero, RuneSelf]
    rw [if_neg (by omega)]
    omega
  · rw [h1]
    simp only [Nat.add_sub_cancel]
    have hw := DecodeRune_width ((q ++ [b]).drop q.length) (drop_ne_nil _ _ (by simp))
    split_ifs <;> omega
  · rw [h4]
    simp only [List.length_append, List.length_singleton] at h2 h3
    have h5 : q.length + 1 - (DecodeRune ((q ++ [b]).drop start)).2 = start := by omega
    rw [h5]
    by_cases h6 : (q ++ [b]).getD start 0 ≥ RuneSelf
    · rw [if_pos ⟨by omega, h6⟩]; omega
    · rw [if_neg (fun hh => h6 hh.2)]
      have h7 : (q ++ [b]).drop start = (q ++ [b]).getD start 0 :: (q ++ [b]).drop (start + 1) := by
        rw [List.getD_eq_getElem _ _ (by simp; omega)]
        exact List.drop_eq_getElem_cons (by simp; omega)
      simp only [RuneSelf] at h6
      rw [h7, DecodeRune_cons_none _ _ ((lead_none_iff _).2 (by omega))] at h3
      simp only at h3
      omega

theorem Trimmed_iff (t : List Nat) :
    Trimmed t = true ↔
      t = [] ∨ (IsSpace (DecodeRune t).1 = false ∧ IsSpace (DecodeLastRune t).1 = false) := by
  simp [Trimmed]

theorem spaceSeq_ne_nil (e : List Nat) (h : spaceSeq e = true) : e ≠ [] :=
  ((spaceSeq_iff e).1 h).1

theorem AllSpace_single (e : List Nat) (h : spaceSeq e = true) : AllSpace e := by
  have := AllSpace.cons e [] h AllSpace.nil
  rwa [List.append_nil] at this

theorem AllSpace_append (w1 w2 : List Nat) (h1 : AllSpace w1) (h2 : AllSpace w2) :
    AllSpace (w1 ++ w2) := by
  induction h1 with
  | nil => exact h2
  | cons e w he _ ih => rw [List.append_assoc]; exact AllSpace.cons e _ he ih

theorem AllSpace_head (w : List Nat) (h : AllSpace w) :
    ∀ b, w.head? = some b → b < 0x80 ∨ 0xBF < b := by
  cases h with
  | nil => intro b hb; simp at hb
  | cons e w he _ =>
    intro b hb
    apply spaceSeq_head e he
    rcases e with _ | ⟨a, e⟩
    · exact absurd rfl (spaceSeq_ne_nil _ he)
    · simpa using hb

theorem TrimLeftFunc_AllSpace (w s : List Nat) (h : AllSpace w) :
    TrimLeftFunc (w ++ s) IsSpace = TrimLeftFunc s IsSpace := by
  induction h with
  | nil => rfl
  | cons e w he _ ih => rw [List.append_assoc, TrimLeftFunc_spaceSeq e _ he, ih]

theorem TrimRightFunc_AllSpace (s w : List Nat) (h : AllSpace w) :
    TrimRightFunc (s ++ w) IsSpace = TrimRightFunc s IsSpace := by
  induction h generalizing s with
  | nil => rw [List.append_nil]
  | cons e w he _ ih => rw [← List.append_assoc, ih, TrimRightFunc_spaceSeq s e he]

/-- The function `TrimFunc` with `unicode.IsSpace` returns the part between
leading and trailing white space. -/
theorem TrimFunc_eq (w1 t w2 : List Nat) (h1 : AllSpace w1) (h2 : AllSpace w2)
    (ht : Trimmed t = true) : TrimFunc (w1 ++ t ++ w2) IsSpace = t := by
  unfold TrimFunc
  rw [List.append_assoc, TrimLeftFunc_AllSpace w1 _ h1]
  by_cases htn : t = []
  · subst htn
    have := TrimLeftFunc_AllSpace w2 [] h2
    rw [List.append_nil] at this
    rw [List.nil_append, this, TrimLeftFunc_nil, TrimRightFunc_nil]
  · rcases (Trimmed_iff t).1 ht with h0 | ⟨h3, h4⟩
    · exact absurd h0 htn
    · have h5 : DecodeRune (t ++ w2) = DecodeRune t :=
        DecodeRune_append t w2 htn (AllSpace_head w2 h2)
      rw [TrimLeftFunc_id (t ++ w2) (by rw [h5]; exact h3), TrimRightFunc_AllSpace t w2 h2,
        TrimRightFunc_id t h4]

/-- Leading white space: `s` is white space followed by `TrimLeftFunc s`, which
is empty or begins with a rune that is not white space. -/
theorem TrimLeftFunc_decomp (s : List Nat) :
    ∃ w1, AllSpace w1 ∧ s = w1 ++ TrimLeftFunc s IsSpace ∧
      (TrimLeftFunc s IsSpace = [] ∨
        IsSpace (DecodeRune (TrimLeftFunc s IsSpace)).1 = false) := by
  generalize hn : s.length = n
  induction n using Nat.strong_induction_on generalizing s with
  | _ n ih =>
    by_cases h : IsSpace (DecodeRune s).1 = true
    · obtain ⟨e, q, h1, h2, -⟩ := spaceSeq_of_DecodeRune s h
      have hlen : 0 < e.length := List.length_pos.2 (spaceSeq_ne_nil e h2)
      obtain ⟨w1, h3, h4, h5⟩ := ih q.length (by rw [← hn, h1, List.length_append]; omega) q rfl
      subst h1
      rw [TrimLeftFunc_spaceSeq e q h2]
      refine ⟨e ++ w1, AllSpace.cons e w1 h2 h3, ?_, h5⟩
      rw [List.append_assoc, ← h4]
    · have h1 : IsSpace (DecodeRune s).1 = false := by simpa using h
      rw [TrimLeftFunc_id s h1]
      exact ⟨[], AllSpace.nil, rfl, Or.inr h1⟩

/-- Trailing white space: `s` is `TrimRightFunc s` followed by white space, and
`TrimRightFunc s` is empty or ends with a rune that is not white space. -/
theorem TrimRightFunc_decomp (s : List Nat) :
    ∃ w2, AllSpace w2 ∧ s = TrimRightFunc s IsSpace ++ w2 ∧
      (TrimRightFunc s IsSpace = [] ∨
        IsSpace (DecodeLastRune (TrimRightFunc s IsSpace)).1 = false) := by
  generalize hn : s.length = n
  induction n using Nat.strong_induction_on generalizing s with
  | _ n ih =>
    by_cases h : IsSpace (DecodeLastRune s).1 = true
    · obtain ⟨q, e, h1, h2, -⟩ := spaceSeq_of_DecodeLastRune s h
      have hlen : 0 < e.length := List.length_pos.2 (spaceSeq_ne_nil e h2)
      obtain ⟨w2, h3, h4, h5⟩ := ih q.length (by rw [← hn, h1, List.length_append]; omega) q rfl
      subst h1
      rw [TrimRightFunc_spaceSeq q e h2]
      refine ⟨w2 ++ e, AllSpace_append w2 e h3 (AllSpace_single e h2), ?_, h5⟩
      rw [← List.append_assoc, ← h4]
    · have h1 : IsSpace (DecodeLastRune s).1 = false := by simpa using h
      rw [TrimRightFunc_id s h1]
      exact ⟨[], AllSpace.nil, (List.append_nil s).symm, Or.inr h1⟩

/-- The function `TrimFunc` with `unicode.IsSpace` splits its input into white
space, the result, and white space; the result is trimmed. -/
theorem TrimFunc_decomp (s : List Nat) :
    ∃ w1 w2, AllSpace w1 ∧ AllSpace w2 ∧ s = w1 ++ TrimFunc s IsSpace ++ w2 ∧
      Trimmed (TrimFunc s IsSpace) = true := by
  obtain ⟨w1, h1, h2, h3⟩ := TrimLeftFunc_decomp s
  obtain ⟨w2, h4, h5, h6⟩ := TrimRightFunc_decomp (TrimLeftFunc s IsSpace)
  refine ⟨w1, w2, h1, h4, ?_, ?_⟩
  · unfold TrimFunc
    rw [List.append_assoc, ← h5, ← h2]
  · unfold TrimFunc
    rw [Trimmed_iff]
    by_cases h7 : TrimRightFunc (TrimLeftFunc s IsSpace) IsSpace = []
    · left; exact h7
    · right
      rcases h6 with h6 | h6
      · exact absurd h6 h7
      · refine ⟨?_, h6⟩
        rcases h3 with h3 | h3
        · rw [h3, TrimRightFunc_nil] at h7; exact absurd rfl h7
        · rw [← DecodeRune_append _ w2 h7 (AllSpace_head w2 h4), ← h5]
          exact h3

theorem asciiSpace_cases (c : Nat) (h : asciiSpace c ≠ 0) :
    c = 0x09 ∨ c = 0x0A ∨ c = 0x0B ∨ c = 0x0C ∨ c = 0x0D ∨ c = 0x20 := by
  unfold asciiSpace at h
  by_contra hc
  rw [if_neg hc] at h
  exact h rfl

theorem asciiSpace_spaceSeq (c : Nat) (h : asciiSpace c ≠ 0) : spaceSeq [c] = true := by
  rcases asciiSpace_cases c h with rfl | rfl | rfl | rfl | rfl | rfl <;> decide

theorem IsSpace_ascii (c : Nat) (h1 : c < 0x80) (h2 : asciiSpace c = 0) : IsSpace c = false := by
  unfold asciiSpace at h2
  unfold IsSpace
  simp only [MaxLatin1]
  rw [if_pos (by omega)]
  by_cases h3 : c = 0x09 ∨ c = 0x0A ∨ c = 0x0B ∨ c = 0x0C ∨ c = 0x0D ∨ c = 0x20
  · rw [if_pos h3] at h2
    exact absurd h2 (by decide)
  · exact decide_eq_false (by omega)

theorem AllSpace_ascii (w : List Nat) (h : ∀ c ∈ w, asciiSpace c ≠ 0) : AllSpace w := by
  induction w with
  | nil => exact AllSpace.nil
  | cons c w ih =>
    exact AllSpace.cons [c] w (asciiSpace_spaceSeq c (h c (by simp)))
      (ih (fun d hd => h d (by simp [hd])))

/-- The first loop of `TrimSpace` skips ASCII white space `w2`; it returns early
with `TrimFunc` of the rest, or stops at the end or at an ASCII byte that is
not white space. -/
theorem trimSpaceStart_spec (x w : List Nat) (fuel : Nat) (hf : x.length ≤ fuel)
    (hw : ∀ c ∈ w, asciiSpace c ≠ 0) :
    ∃ w2 x2, w ++ x = w2 ++ x2 ∧ (∀ c ∈ w2, asciiSpace c ≠ 0) ∧
      (trimSpaceStart (w ++ x) fuel w.length = .error (TrimFunc x2 IsSpace) ∨
        (trimSpaceStart (w ++ x) fuel w.length = .ok w2.length ∧
          (x2 = [] ∨ ∃ c x3, x2 = c :: x3 ∧ c < 0x80 ∧ asciiSpace c = 0))) := by
  induction x generalizing w fuel with
  | nil =>
    refine ⟨w, [], rfl, hw, Or.inr ⟨?_, Or.inl rfl⟩⟩
    cases fuel with
    | zero => rfl
    | succ n => rw [trimSpaceStart, if_neg (by simp)]
  | cons c x ih =>
    cases fuel with
    | zero => simp at hf
    | succ n =>
      have hget : (w ++ c :: x).getD w.length 0 = c := by
        rw [List.getD_append_right _ _ _ _ (le_refl _)]; simp
      rw [trimSpaceStart, if_pos (by simp)]
      simp only [hget]
      by_cases h1 : c ≥ RuneSelf
      · refine ⟨w, c :: x, rfl, hw, Or.inl ?_⟩
        rw [if_pos h1, List.drop_left]
      · rw [if_neg h1]
        by_cases h2 : asciiSpace c = 0
        · refine ⟨w, c :: x, rfl, hw, Or.inr ⟨?_, Or.inr ⟨c, x, rfl, ?_, h2⟩⟩⟩
          · rw [if_pos h2]
          · simpa [RuneSelf] using h1
        · rw [if_neg h2]
          have hw2 : ∀ d ∈ w ++ [c], asciiSpace d ≠ 0 := by
            intro d hd
            rcases List.mem_append.1 hd with hd | hd
            · exact hw d hd
            · rw [List.mem_singleton.1 hd]; exact h2
          obtain ⟨w2, x2, h3, h4, h5⟩ := ih (w ++ [c]) n (by simpa using hf) hw2
          have h6 : w ++ c :: x = (w ++ [c]) ++ x := by simp
          have h7 : w.length + 1 = (w ++ [c]).length := by simp
          rw [h6, h7]
          exact ⟨w2, x2, h3, h4, h5⟩

/-- The second loop of `TrimSpace` skips trailing ASCII white space; it returns
early with `TrimFunc` of the rest, or stops at `start` or after an ASCII byte
that is not white space. -/
theorem trimSpaceStop_spec (w m v : List Nat) (fuel : Nat) (hf : m.length ≤ fuel)
    (hv : ∀ c ∈ v, asciiSpace c ≠ 0) :
    ∃ m2 v2, m ++ v = m2 ++ v2 ∧ (∀ c ∈ v2, asciiSpace c ≠ 0) ∧
      (trimSpaceStop (w ++ m ++ v) w.length fuel (w.length + m.length)
          = .error (TrimFunc m2 IsSpace) ∨
        (trimSpaceStop (w ++ m ++ v) w.length fuel (w.length + m.length)
            = .ok (w.length + m2.length) ∧
          (m2 = [] ∨ ∃ m3 c, m2 = m3 ++ [c] ∧ c < 0x80 ∧ asciiSpace c = 0))) := by
  induction m using List.reverseRecOn generalizing v fuel with
  | nil =>
    refine ⟨[], v, rfl, hv, Or.inr ⟨?_, Or.inl rfl⟩⟩
    cases fuel with
    | zero => rfl
    | succ n => rw [trimSpaceStop, if_neg (by simp)]
  | append_singleton m c ih =>
    cases fuel with
    | zero => simp at hf
    | succ n =>
      have hget : (w ++ (m ++ [c]) ++ v).getD (w.length + (m ++ [c]).length - 1) 0 = c := by
        have : w ++ (m ++ [c]) ++ v = (w ++ m) ++ (c :: v) := by simp
        rw [this, List.getD_append_right _ _ _ _ (by simp)]
        simp
      have htake : ((w ++ (m ++ [c]) ++ v).take (w.length + (m ++ [c]).length)).drop w.length
          = m ++ [c] := by
        have : w.length + (m ++ [c]).length = (w ++ (m ++ [c])).length := by simp
        rw [this, List.take_left, List.drop_left]
      rw [trimSpaceStop, if_pos (by simp)]
      simp only [hget, htake]
      by_cases h1 : c ≥ RuneSelf
      · refine ⟨m ++ [c], v, rfl, hv, Or.inl ?_⟩
        rw [if_pos h1]
      · rw [if_neg h1]
        by_cases h2 : asciiSpace c = 0
        · refine ⟨m ++ [c], v, rfl, hv, Or.inr ⟨?_, Or.inr ⟨m, c, rfl, ?_, h2⟩⟩⟩
          · rw [if_pos h2]
          · simpa [RuneSelf] using h1
        · rw [if_neg h2]
          have hv2 : ∀ d ∈ c :: v, asciiSpace d ≠ 0 := by
            intro d hd
            rcases List.mem_cons.1 hd with hd | hd
            · rw [hd]; exact h2
            · exact hv d hd
          obtain ⟨m2, v2, h3, h4, h5⟩ := ih (c :: v) n (by simpa using hf) hv2
          have h6 : w ++ (m ++ [c]) ++ v = w ++ m ++ (c :: v) := by simp
          have h7 : w.length + (m ++ [c]).length - 1 = w.length + m.length := by simp
          have h8 : m ++ [c] ++ v = m ++ c :: v := by simp
          rw [h6, h7, h8]
          exact ⟨m2, v2, h3, h4, h5⟩

/-- White space around `x` does not change what `TrimFunc` returns. -/
theorem TrimFunc_around (w1 x w2 : List Nat) (h1 : AllSpace w1) (h2 : AllSpace w2) :
    TrimFunc (w1 ++ x ++ w2) IsSpace = TrimFunc x IsSpace := by
  obtain ⟨u1, u2, h3, h4, h5, h6⟩ := TrimFunc_decomp x
  have h7 : w1 ++ x ++ w2 = (w1 ++ u1) ++ TrimFunc x IsSpace ++ (u2 ++ w2) := by
    conv_lhs => rw [h5]
    simp only [List.append_assoc]
  rw [h7]
  exact TrimFunc_eq _ _ _ (AllSpace_append _ _ h1 h3) (AllSpace_append _ _ h4 h2) h6

/-- The ASCII fast path of `TrimSpace` returns what `TrimFunc(s, unicode.IsSpace)`
returns. -/
theorem TrimSpace_eq_TrimFunc (s : List Nat) : TrimSpace s = TrimFunc s IsSpace := by
  unfold TrimSpace
  obtain ⟨w2, x2, h1, h2, h3⟩ := trimSpaceStart_spec s [] s.length (le_refl _) (by simp)
  simp only [List.nil_append, List.length_nil] at h1 h3
  have hw2 := AllSpace_ascii w2 h2
  rcases h3 with h3 | ⟨h3, h4⟩
  · rw [h3]
    have := TrimFunc_around w2 x2 [] hw2 AllSpace.nil
    rw [List.append_nil, ← h1] at this
    exact this.symm
  · rw [h3]
    simp only
    have hlen : x2.length ≤ s.length := by rw [h1, List.length_append]; omega
    obtain ⟨m2, v2, h5, h6, h7⟩ := trimSpaceStop_spec w2 x2 [] s.length hlen (by simp)
    simp only [List.append_nil] at h5 h7
    have hs : s.length = w2.length + x2.length := by rw [h1, List.length_append]
    rw [← h1, ← hs] at h7
    have hv2 := AllSpace_ascii v2 h6
    have hs2 : s = w2 ++ m2 ++ v2 := by rw [h1, h5, List.append_assoc]
    rcases h7 with h7 | ⟨h7, h8⟩
    · rw [h7]
      simp only
      rw [hs2, TrimFunc_around w2 m2 v2 hw2 hv2]
    · rw [h7]
      simp only
      rcases h8 with rfl | ⟨m3, c, rfl, hc1, hc2⟩
      · rw [if_pos (by simp)]
        have := TrimFunc_eq w2 [] v2 hw2 hv2 (by decide)
        rw [hs2]; exact this.symm
      · rw [if_neg (by simp)]
        have htake : (s.take (w2.length + (m3 ++ [c]).length)).drop w2.length = m3 ++ [c] := by
          have : w2.length + (m3 ++ [c]).length = (w2 ++ (m3 ++ [c])).length := by simp
          rw [hs2, this, List.take_left, List.drop_left]
        rw [htake]
        have hT : Trimmed (m3 ++ [c]) = true := by
          rw [Trimmed_iff]
          right
          constructor
          · rcases h4 with h4 | ⟨c0, x3, h4, hc3, hc4⟩
            · rw [h4] at h5
              have := congrArg List.length h5
              simp only [List.length_nil, List.length_append, List.length_singleton] at this
              omega
            · have hm : ∃ m4, m3 ++ [c] = c0 :: m4 := by
                rcases m3 with _ | ⟨a, m3⟩
                · rw [h4] at h5
                  simp only [List.nil_append, List.singleton_append, List.cons.injEq] at h5
                  exact ⟨[], by rw [h5.1]; rfl⟩
                · rw [h4] at h5
                  simp only [List.cons_append, List.cons.injEq] at h5
                  exact ⟨m3 ++ [c], by rw [h5.1]; rfl⟩
              obtain ⟨m4, hm4⟩ := hm
              rw [hm4, DecodeRune_cons_none c0 m4 ((lead_none_iff c0).2 (by omega)),
                if_neg (by omega)]
              exact IsSpace_ascii c0 hc3 hc4
          · rcases DecodeLastRune_cases m3 c with ⟨-, h9⟩ | ⟨h9, -⟩
            · rw [h9]; exact IsSpace_ascii c hc1 hc2
            · omega
        have := TrimFunc_eq w2 (m3 ++ [c]) v2 hw2 hv2 hT
        rw [hs2]; exact this.symm

/-- The input of `TrimSpace` is white space, the result, and white space, and the
result neither begins nor ends with white space. -/
theorem TrimSpace_decomp (s : List Nat) :
    ∃ w1 w2, AllSpace w1 ∧ AllSpace w2 ∧ s = w1 ++ TrimSpace s ++ w2 ∧
      Trimmed (TrimSpace s) = true := by
  rw [TrimSpace_eq_TrimFunc]
  exact TrimFunc_decomp s

/-- The function `TrimSpace` returns the trimmed middle of its input. -/
theorem TrimSpace_eq (w1 t w2 : List Nat) (h1 : AllSpace w1) (h2 : AllSpace w2)
    (ht : Trimmed t = true) : TrimSpace (w1 ++ t ++ w2) = t := by
  rw [TrimSpace_eq_TrimFunc]
  exact TrimFunc_eq w1 t w2 h1 h2 ht

/-- White space added in front of or behind `x` does not change `TrimSpace`. -/
theorem TrimSpace_around (w1 x w2 : List Nat) (h1 : AllSpace w1) (h2 : AllSpace w2) :
    TrimSpace (w1 ++ x ++ w2) = TrimSpace x := by
  rw [TrimSpace_eq_TrimFunc, TrimSpace_eq_TrimFunc]
  exact TrimFunc_around w1 x w2 h1 h2

/-- A trimmed sequence does not begin with a white-space character. -/
theorem Trimmed_no_leading (t : List Nat) (ht : Trimmed t = true) (e q : List Nat)
    (he : spaceSeq e = true) : t ≠ e ++ q := by
  rintro rfl
  rcases (Trimmed_iff _).1 ht with h | ⟨h, -⟩
  · exact spaceSeq_ne_nil e he (List.append_eq_nil.1 h).1
  · rw [DecodeRune_spaceSeq e q he, ((spaceSeq_iff e).1 he).2.2] at h
    exact absurd h (by decide)

/-- A trimmed sequence does not end with a white-space character. -/
theorem Trimmed_no_trailing (t : List Nat) (ht : Trimmed t = true) (q e : List Nat)
    (he : spaceSeq e = true) : t ≠ q ++ e := by
  rintro rfl
  rcases (Trimmed_iff _).1 ht with h | ⟨-, h⟩
  · exact spaceSeq_ne_nil e he (List.append_eq_nil.1 h).2
  · rw [DecodeLastRune_spaceSeq q e he, ((spaceSeq_iff e).1 he).2.2] at h
    exact absurd h (by decide)

/-- The first loop of `TrimSpace` makes at most `len(s) - start` rounds: fuel
beyond that does not change its result. -/
theorem trimSpaceStart_fuel (s : List Nat) (fuel fuel2 start : Nat)
    (h1 : s.length - start ≤ fuel) (h2 : s.length - start ≤ fuel2) :
    trimSpaceStart s fuel start = trimSpaceStart s fuel2 start := by
  induction fuel generalizing start fuel2 with
  | zero =>
    cases fuel2 with
    | zero => rfl
    | succ m => rw [trimSpaceStart, trimSpaceStart, if_neg (by omega)]
  | succ n ih =>
    cases fuel2 with
    | zero => rw [trimSpaceStart, trimSpaceStart, if_neg (by omega)]
    | succ m =>
      rw [trimSpaceStart, trimSpaceStart]
      by_cases h : start < s.length
      · rw [if_pos h, if_pos h, ih m (start + 1) (by omega) (by omega)]
      · rw [if_neg h, if_neg h]

/-- The second loop of `TrimSpace` makes at most `stop - start` rounds: fuel
beyond that does not change its result. -/
theorem trimSpaceStop_fuel (s : List Nat) (start fuel fuel2 stop : Nat)
    (h1 : stop - start ≤ fuel) (h2 : stop - start ≤ fuel2) :
    trimSpaceStop s start fuel stop = trimSpaceStop s start fuel2 stop := by
  induction fuel generalizing stop fuel2 with
  | zero =>
    cases fuel2 with
    | zero => rfl
    | succ m => rw [trimSpaceStop, trimSpaceStop, if_neg (by omega)]
  | succ n ih =>
    cases fuel2 with
    | zero => rw [trimSpaceStop, trimSpaceStop, if_neg (by omega)]
    | succ m =>
      rw [trimSpaceStop, trimSpaceStop]
      by_cases h : stop > start
      · rw [if_pos h, if_pos h, ih m (stop - 1) (by omega) (by omega)]
      · rw [if_neg h, if_neg h]

end bytes

/-! ## Theorems: the white-space characters, byte by byte -/

namespace bytes

open utf8 unicode

theorem shiftLeft_or (a b i n : Nat) (hn : 2 ^ i = n) (hb : b < n) :
    (a <<< i) ||| b = a * n + b := by
  subst hn
  rw [Nat.shiftLeft_eq, Nat.mul_comm, Nat.mul_add_lt_is_or hb]

theorem shiftLeft_mul (a i n : Nat) (hn : 2 ^ i = n) : a <<< i = a * n := by
  subst hn
  exact Nat.shiftLeft_eq a i

theorem rune2 (a b : Nat) :
    ((a &&& mask2) <<< 6) ||| (b &&& maskx) = (a % 32) * 64 + b % 64 := by
  have h1 : a &&& mask2 = a % 32 := Nat.and_pow_two_sub_one_eq_mod a 5
  have h2 : b &&& maskx = b % 64 := Nat.and_pow_two_sub_one_eq_mod b 6
  rw [h1, h2, shiftLeft_or (a % 32) (b % 64) 6 64 rfl (by omega)]

theorem rune3 (a b c : Nat) :
    ((a &&& mask3) <<< 12) ||| ((b &&& maskx) <<< 6) ||| (c &&& maskx)
      = (a % 16) * 4096 + (b % 64) * 64 + c % 64 := by
  have h1 : a &&& mask3 = a % 16 := Nat.and_pow_two_sub_one_eq_mod a 4
  have h2 : b &&& maskx = b % 64 := Nat.and_pow_two_sub_one_eq_mod b 6
  have h3 : c &&& maskx = c % 64 := Nat.and_pow_two_sub_one_eq_mod c 6
  rw [h1, h2, h3, shiftLeft_mul (b % 64) 6 64 rfl,
    shiftLeft_or (a % 16) (b % 64 * 64) 12 4096 rfl (by omega)]
  have h5 : a % 16 * 4096 + b % 64 * 64 = (a % 16 * 64 + b % 64) <<< 6 := by
    rw [shiftLeft_mul _ 6 64 rfl]; omega
  rw [h5, shiftLeft_or _ (c % 64) 6 64 rfl (by omega)]
  omega

theorem rune4 (a b c d : Nat) :
    ((a &&& mask4) <<< 18) ||| ((b &&& maskx) <<< 12) ||| ((c &&& maskx) <<< 6)
      ||| (d &&& maskx) = (a % 8) * 262144 + (b % 64) * 4096 + (c % 64) * 64 + d % 64 := by
  have h1 : a &&& mask4 = a % 8 := Nat.and_pow_two_sub_one_eq_mod a 3
  have h2 : b &&& maskx = b % 64 := Nat.and_pow_two_sub_one_eq_mod b 6
  have h3 : c &&& maskx = c % 64 := Nat.and_pow_two_sub_one_eq_mod c 6
  have h4 : d &&& maskx = d % 64 := Nat.and_pow_two_sub_one_eq_mod d 6
  rw [h1, h2, h3, h4, shiftLeft_mul (b % 64) 12 4096 rfl,
    shiftLeft_mul (c % 64) 6 64 rfl,
    shiftLeft_or (a % 8) (b % 64 * 4096) 18 262144 rfl (by omega)]
  have h5 : a % 8 * 262144 + b % 64 * 4096 = (a % 8 * 64 + b % 64) <<< 12 := by
    rw [shiftLeft_mul _ 12 4096 rfl]; omega
  rw [h5, shiftLeft_or _ (c % 64 * 64) 12 4096 rfl (by omega)]
  have h6 : (a % 8 * 64 + b % 64) * 4096 + c % 64 * 64
      = ((a % 8 * 64 + b % 64) * 64 + c % 64) <<< 6 := by
    rw [shiftLeft_mul _ 6 64 rfl]; omega
  rw [h6, shiftLeft_or _ (d % 64) 6 64 rfl (by omega)]
  omega

theorem spaceEncodings_spaceSeq : ∀ e ∈ spaceEncodings, spaceSeq e = true := by decide

theorem IsSpace_cases (r : Nat) (h : IsSpace r = true) :
    r = 0x09 ∨ r = 0x0A ∨ r = 0x0B ∨ r = 0x0C ∨ r = 0x0D ∨ r = 0x20 ∨ r = 0x85 ∨ r = 0xA0 ∨
    r = 0x1680 ∨ (0x2000 ≤ r ∧ r ≤ 0x200A) ∨ r = 0x2028 ∨ r = 0x2029 ∨ r = 0x202F ∨
    r = 0x205F ∨ r = 0x3000 := by
  unfold IsSpace at h
  simp only [MaxLatin1, White_Space] at h
  split_ifs at h
  · simp only [decide_eq_true_eq] at h
    omega
  · simp only [List.any_cons, List.any_nil, Bool.or_false, Bool.or_eq_true, Bool.and_eq_true,
      decide_eq_true_eq] at h
    omega

/-- The three-byte encodings that decode to white space. -/
theorem three_byte_space (a b c lo hi r : Nat)
    (hr : r = 0x09 ∨ r = 0x0A ∨ r = 0x0B ∨ r = 0x0C ∨ r = 0x0D ∨ r = 0x20 ∨ r = 0x85 ∨
      r = 0xA0 ∨ r = 0x1680 ∨ (0x2000 ≤ r ∧ r ≤ 0x200A) ∨ r = 0x2028 ∨ r = 0x2029 ∨
      r = 0x202F ∨ r = 0x205F ∨ r = 0x3000)
    (hd : r = (a % 16) * 4096 + (b % 64) * 64 + c % 64)
    (ha1 : 0xE0 ≤ a) (ha2 : a < 0xF0) (hb1 : lo ≤ b) (hb2 : b ≤ hi) (hlo : 0x80 ≤ lo)
    (hhi : hi ≤ 0xBF) (hc : 0x80 ≤ c ∧ c ≤ 0xBF) (hE0 : a = 0xE0 → 0xA0 ≤ lo) :
    (a = 0xE1 ∧ b = 0x9A ∧ c = 0x80) ∨ (a = 0xE2 ∧ b = 0x80 ∧ 0x80 ≤ c ∧ c ≤ 0x8A) ∨
    (a = 0xE2 ∧ b = 0x80 ∧ c = 0xA8) ∨ (a = 0xE2 ∧ b = 0x80 ∧ c = 0xA9) ∨
    (a = 0xE2 ∧ b = 0x80 ∧ c = 0xAF) ∨ (a = 0xE2 ∧ b = 0x81 ∧ c = 0x9F) ∨
    (a = 0xE3 ∧ b = 0x80 ∧ c = 0x80) := by
  have hA : a % 16 = r / 4096 := by omega
  have hB : b % 64 = r / 64 % 64 := by omega
  have hC : c % 64 = r % 64 := by omega
  have hsmall : 0x800 ≤ r := by omega
  clear hd
  rcases hr with hr | hr | hr | hr | hr | hr | hr | hr | hr | hr | hr | hr | hr | hr | hr
  · omega
  · omega
  · omega
  · omega
  · omega
  · omega
  · omega
  · omega
  · subst hr; left; refine ⟨?_, ?_, ?_⟩ <;> omega
  · right; left; refine ⟨?_, ?_, ?_, ?_⟩ <;> omega
  · subst hr; right; right; left; refine ⟨?_, ?_, ?_⟩ <;> omega
  · subst hr; right; right; right; left; refine ⟨?_, ?_, ?_⟩ <;> omega
  · subst hr; right; right; right; right; left; refine ⟨?_, ?_, ?_⟩ <;> omega
  · subst hr; right; right; right; right; right; left; refine ⟨?_, ?_, ?_⟩ <;> omega
  · subst hr; right; right; right; right; right; right; refine ⟨?_, ?_, ?_⟩ <;> omega

/-- The two-byte encodings that decode to white space. -/
theorem two_byte_space (a b r : Nat)
    (hr : r = 0x09 ∨ r = 0x0A ∨ r = 0x0B ∨ r = 0x0C ∨ r = 0x0D ∨ r = 0x20 ∨ r = 0x85 ∨
      r = 0xA0 ∨ r = 0x1680 ∨ (0x2000 ≤ r ∧ r ≤ 0x200A) ∨ r = 0x2028 ∨ r = 0x2029 ∨
      r = 0x202F ∨ r = 0x205F ∨ r = 0x3000)
    (hd : r = (a % 32) * 64 + b % 64)
    (ha1 : 0xC2 ≤ a) (ha2 : a < 0xE0) (hb1 : 0x80 ≤ b) (hb2 : b ≤ 0xBF) :
    a = 0xC2 ∧ (b = 0x85 ∨ b = 0xA0) := by
  have hA : a % 32 = r / 64 := by omega
  have hB : b % 64 = r % 64 := by omega
  have h1 : 0x80 ≤ r := by omega
  have h2 : r < 0x800 := by omega
  clear hd
  have h3 : r = 0x85 ∨ r = 0xA0 := by omega
  clear hr
  rcases h3 with h3 | h3
  · subst h3; constructor <;> omega
  · subst h3; constructor <;> omega

/-- A four-byte encoding does not decode to white space. -/
theorem four_byte_space (a b c d lo r : Nat)
    (hr : r = 0x09 ∨ r = 0x0A ∨ r = 0x0B ∨ r = 0x0C ∨ r = 0x0D ∨ r = 0x20 ∨ r = 0x85 ∨
      r = 0xA0 ∨ r = 0x1680 ∨ (0x2000 ≤ r ∧ r ≤ 0x200A) ∨ r = 0x2028 ∨ r = 0x2029 ∨
      r = 0x202F ∨ r = 0x205F ∨ r = 0x3000)
    (hd : r = (a % 8) * 262144 + (b % 64) * 4096 + (c % 64) * 64 + d % 64)
    (ha1 : 0xF0 ≤ a) (ha2 : a ≤ 0xF4) (hb1 : lo ≤ b) (hb2 : b ≤ 0xBF)
    (hF0 : a = 0xF0 → 0x90 ≤ lo) : False := by
  have h1 : r < 0x10000 := by omega
  clear hr
  have h2 : 0x10000 ≤ r := by
    by_cases h : a = 0xF0
    · have := hF0 h
      omega
    · omega
  omega

/-- The one-byte encodings that decode to white space. -/
theorem one_byte_space (r : Nat)
    (hr : r = 0x09 ∨ r = 0x0A ∨ r = 0x0B ∨ r = 0x0C ∨ r = 0x0D ∨ r = 0x20 ∨ r = 0x85 ∨
      r = 0xA0 ∨ r = 0x1680 ∨ (0x2000 ≤ r ∧ r ≤ 0x200A) ∨ r = 0x2028 ∨ r = 0x2029 ∨
      r = 0x202F ∨ r = 0x205F ∨ r = 0x3000)
    (ha : r < 0x80) :
    r = 0x09 ∨ r = 0x0A ∨ r = 0x0B ∨ r = 0x0C ∨ r = 0x0D ∨ r = 0x20 := by
  rcases hr with hr | hr | hr | hr | hr | hr | hr | hr | hr | hr | hr | hr | hr | hr | hr
  · exact Or.inl hr
  · exact Or.inr (Or.inl hr)
  · exact Or.inr (Or.inr (Or.inl hr))
  · exact Or.inr (Or.inr (Or.inr (Or.inl hr)))
  · exact Or.inr (Or.inr (Or.inr (Or.inr (Or.inl hr))))
  · exact Or.inr (Or.inr (Or.inr (Or.inr (Or.inr hr))))
  all_goals (exfalso; omega)

/-- The white-space characters are exactly the listed encodings. -/
theorem spaceSeq_iff_mem (e : List Nat) : spaceSeq e = true ↔ e ∈ spaceEncodings := by
  constructor
  · intro h
    have hv := spaceSeq_valid e h
    obtain ⟨-, -, hs⟩ := (spaceSeq_iff e).1 h
    have hr := IsSpace_cases _ hs
    clear hs h
    rcases e with _ | ⟨a, _ | ⟨b, rest⟩⟩
    · simp [validEnc] at hv
    · have ha : a < 0x80 := by simpa [validEnc] using hv
      rw [DecodeRune_cons_none a [] ((lead_none_iff a).2 (by omega)), if_neg (by omega)] at hr
      rcases one_byte_space a hr ha with rfl | rfl | rfl | rfl | rfl | rfl <;> decide
    · cases hl : lead a with
      | none => simp [validEnc, hl] at hv
      | some v =>
        obtain ⟨sz, lo, hi⟩ := v
        obtain ⟨-, -, -, hsz, hlo, hhi, ha1, ha2⟩ := first_of_lead_some a sz lo hi hl
        simp only [validEnc, hl, Bool.and_eq_true, decide_eq_true_eq, List.all_eq_true] at hv
        obtain ⟨⟨h1, h2⟩, h3⟩ := hv
        rw [DecodeRune_cons_some a sz lo hi _ hl] at hr
        unfold decodeWith at hr
        simp only [List.length_cons, List.getD_cons_zero, List.getD_cons_succ, locb, hicb] at hr
        rw [if_neg (by omega), if_neg (by omega)] at hr
        rcases rest with _ | ⟨c, _ | ⟨d, rest⟩⟩
        · simp only [List.length_nil] at h1
          subst h1
          rw [if_pos (le_refl 2), rune2] at hr
          have ha := (lead_ranges a _ lo hi hl).1 rfl
          obtain ⟨rfl, hb⟩ := two_byte_space a b _ hr rfl ha1 ha (by omega) (by omega)
          rcases hb with rfl | rfl <;> decide
        · have hc := h3 c (List.mem_cons_self _ _)
          simp only [List.length_cons, List.length_nil] at h1
          subst h1
          simp only [List.getD_cons_zero] at hr
          rw [if_neg (by omega), if_neg (by omega), if_pos (le_refl 3), rune3] at hr
          have ha := (lead_ranges a _ lo hi hl).2.1 rfl
          have hcase := three_byte_space a b c lo hi _ hr rfl ha.1 ha.2.1 h2.1 h2.2 hlo hhi hc
            ha.2.2
          clear hr
          rcases hcase with ⟨rfl, rfl, rfl⟩ | ⟨rfl, rfl, hc1, hc2⟩ | ⟨rfl, rfl, rfl⟩ |
            ⟨rfl, rfl, rfl⟩ | ⟨rfl, rfl, rfl⟩ | ⟨rfl, rfl, rfl⟩ | ⟨rfl, rfl, rfl⟩
          · decide
          · interval_cases c <;> decide
          all_goals decide
        · exfalso
          have hc := h3 c (List.mem_cons_self _ _)
          have hd := h3 d (List.mem_cons_of_mem _ (List.mem_cons_self _ _))
          simp only [List.length_cons] at h1
          have hrest : rest = [] := List.eq_nil_of_length_eq_zero (by omega)
          subst hrest
          simp only [List.length_nil] at h1
          subst h1
          simp only [List.getD_cons_zero, List.getD_cons_succ] at hr
          rw [if_neg (by omega), if_neg (by omega), if_neg (by omega), if_neg (by omega),
            rune4] at hr
          have ha := (lead_ranges a _ lo hi hl).2.2 rfl
          exact four_byte_space a b c d lo _ hr rfl ha.1 ha2 h2.1 (by omega) ha.2
  · exact spaceEncodings_spaceSeq e

end bytes

/-! ## Theorems: runcmd -/

namespace runcmd

open bytes

theorem lookup_fst {α : Type} (l : List α) (a b : α) : (l ++ [a, b])[l.length]? = some a := by
  rw [List.getElem?_append_right (le_refl _)]
  simp

theorem lookup_snd {α : Type} (l : List α) (a b : α) :
    (l ++ [a, b])[l.length + 1]? = some b := by
  rw [List.getElem?_append_right (by omega)]
  simp

theorem lookup_last {α : Type} (l : List α) (a : α) : (l ++ [a])[l.length]? = some a := by
  rw [List.getElem?_append_right (le_refl _)]
  simp

theorem set_fst {α : Type} (l : List α) (a b c : α) :
    (l ++ [a, b]).set l.length c = l ++ [c, b] := by
  rw [List.set_append_right _ _ (le_refl _)]
  simp

theorem set_snd {α : Type} (l : List α) (a b c : α) :
    (l ++ [a, b]).set (l.length + 1) c = l ++ [a, c] := by
  rw [List.set_append_right _ _ (by omega)]
  simp

/-- The function `Run` in closed form: two buffers holding what the process
wrote, one `Streams` pointing to them, and a `CommandError` exactly when the
execution reported an error. -/
theorem Run_eq (o : exec.Outcome) (cmd : exec.Cmd) (h : Heap) :
    Run o cmd h =
      { heap :=
          { buffers := h.buffers ++ [Buffer.mk o.stdout 0, Buffer.mk o.stderr 0],
            streams := h.streams ++
              [Streams.mk (some h.buffers.length) (some (h.buffers.length + 1))],
            commandErrors :=
              if o.err = none then h.commandErrors
              else h.commandErrors ++
                [CommandError.mk (cmd.Path ++ bytesOf " " ++ strings.Join cmd.Args (bytesOf " "))
                  (some h.streams.length)] },
        cmd := { cmd with Stdout := .buffer h.buffers.length,
                          Stderr := .buffer (h.buffers.length + 1) },
        streams := some h.streams.length,
        err := if o.err = none then .nil else .commandError h.commandErrors.length } := by
  unfold Run exec.Cmd.Run exec.write
  simp only [lookup_fst, set_fst, lookup_snd, set_snd, Buffer.Write, List.nil_append]
  cases o.err <;> simp

/-- The method `Error` on a `CommandError` whose pointers are all valid. -/
theorem Error_of_holds (h : Heap) (p : Nat) (c e o : List Nat)
    (hv : holds h p = some (c, e, o)) :
    CommandError.Error h (some p) = some (bytesOf "error executing: " ++ c ++ bytesOf ":\n"
      ++ e ++ bytesOf "\n" ++ TrimSpace o) := by
  unfold holds at hv
  simp only [Option.bind_eq_bind, Option.bind_eq_some, Option.pure_def, Option.some.injEq,
    Prod.mk.injEq] at hv
  obtain ⟨ce, h1, s, h2, st, h3, ao, h4, ae, h5, bo, h6, be, h7, rfl, rfl, rfl⟩ := hv
  unfold CommandError.Error Streams.Stderr Streams.Stdout Bytes
  simp only [Option.some_bind, h1, h2, h3, h4, h5, h6, h7, Option.bind_eq_bind, Option.map_some',
    Option.pure_def, Option.some.injEq]
  simp [fmt.Sprintf, bytesOf]

/-- After a failing run the returned error is a `CommandError` whose pointers are
all valid: they lead to the two buffers holding what the process wrote. -/
theorem Run_holds (o : exec.Outcome) (cmd : exec.Cmd) (h : Heap) (hf : o.err ≠ none) :
    (Run o cmd h).err = .commandError h.commandErrors.length ∧
    holds (Run o cmd h).heap h.commandErrors.length =
      some (cmd.Path ++ bytesOf " " ++ strings.Join cmd.Args (bytesOf " "), o.stderr, o.stdout) := by
  rw [Run_eq]
  simp only [if_neg hf]
  refine ⟨trivial, ?_⟩
  unfold holds
  dsimp only
  rw [lookup_last]
  dsimp only [Option.bind_eq_bind, Option.some_bind]
  rw [lookup_last]
  dsimp only [Option.bind_eq_bind, Option.some_bind]
  rw [lookup_fst, lookup_snd]
  rfl

theorem Run_streams_ptr (o : exec.Outcome) (cmd : exec.Cmd) (h : Heap) :
    (Run o cmd h).streams = some h.streams.length := by
  rw [Run_eq]

theorem Run_heap_streams (o : exec.Outcome) (cmd : exec.Cmd) (h : Heap) :
    (Run o cmd h).heap.streams =
      h.streams ++ [Streams.mk (some h.buffers.length) (some (h.buffers.length + 1))] := by
  rw [Run_eq]

theorem Run_heap_buffers (o : exec.Outcome) (cmd : exec.Cmd) (h : Heap) :
    (Run o cmd h).heap.buffers =
      h.buffers ++ [Buffer.mk o.stdout 0, Buffer.mk o.stderr 0] := by
  rw [Run_eq]

theorem Run_heap_errors_fail (o : exec.Outcome) (cmd : exec.Cmd) (h : Heap)
    (hf : o.err ≠ none) :
    (Run o cmd h).heap.commandErrors = h.commandErrors ++
      [CommandError.mk (cmd.Path ++ bytesOf " " ++ strings.Join cmd.Args (bytesOf " "))
        (some h.streams.length)] := by
  rw [Run_eq]
  exact if_neg hf

theorem Run_heap_errors_ok (o : exec.Outcome) (cmd : exec.Cmd) (h : Heap)
    (hs : o.err = none) : (Run o cmd h).heap.commandErrors = h.commandErrors := by
  rw [Run_eq]
  exact if_pos hs

theorem Run_err_fail (o : exec.Outcome) (cmd : exec.Cmd) (h : Heap) (hf : o.err ≠ none) :
    (Run o cmd h).err = .commandError h.commandErrors.length := by
  rw [Run_eq]
  exact if_neg hf

theorem Run_err_ok (o : exec.Outcome) (cmd : exec.Cmd) (h : Heap) (hs : o.err = none) :
    (Run o cmd h).err = .nil := by
  rw [Run_eq]
  exact if_pos hs

theorem Run_cmd (o : exec.Outcome) (cmd : exec.Cmd) (h : Heap) :
    (Run o cmd h).cmd = { cmd with Stdout := .buffer h.buffers.length,
                                   Stderr := .buffer (h.buffers.length + 1) } := by
  rw [Run_eq]

/-- The bytes of the returned `Stdout()` buffer are what the process wrote to
standard output. -/
theorem Run_stdout (o : exec.Outcome) (cmd : exec.Cmd) (h : Heap) :
    (Streams.Stdout (Run o cmd h).heap (Run o cmd h).streams).bind (Bytes (Run o cmd h).heap)
      = some o.stdout := by
  rw [Run_streams_ptr]
  unfold Streams.Stdout Bytes
  rw [Run_heap_streams, Run_heap_buffers]
  dsimp only
  rw [lookup_last]
  simp only [Option.map_some', Option.some_bind, lookup_fst]
  rfl

/-- The bytes of the returned `Stderr()` buffer are what the process wrote to
standard error. -/
theorem Run_stderr (o : exec.Outcome) (cmd : exec.Cmd) (h : Heap) :
    (Streams.Stderr (Run o cmd h).heap (Run o cmd h).streams).bind (Bytes (Run o cmd h).heap)
      = some o.stderr := by
  rw [Run_streams_ptr]
  unfold Streams.Stderr Bytes
  rw [Run_heap_streams, Run_heap_buffers]
  dsimp only
  rw [lookup_last]
  simp only [Option.map_some', Option.some_bind, lookup_snd]
  rfl

/-- The `CommandError` that a failing run allocates. -/
theorem Run_commandError (o : exec.Outcome) (cmd : exec.Cmd) (h : Heap) (hf : o.err ≠ none) :
    (Run o cmd h).heap.commandErrors[h.commandErrors.length]? =
      some (CommandError.mk (cmd.Path ++ bytesOf " " ++ strings.Join cmd.Args (bytesOf " "))
        (some h.streams.length)) := by
  rw [Run_heap_errors_fail o cmd h hf]
  exact lookup_last _ _

/-- The `Streams` that a run allocates. -/
theorem Run_streams_obj (o : exec.Outcome) (cmd : exec.Cmd) (h : Heap) :
    (Run o cmd h).heap.streams[h.streams.length]? =
      some (Streams.mk (some h.buffers.length) (some (h.buffers.length + 1))) := by
  rw [Run_heap_streams]
  exact lookup_last _ _

end runcmd

/-! ## Theorems: the claims -/

namespace runcmd

open bytes

/-- C1: for a `CommandError` with full command `c` whose streams hold error bytes
`e` and output bytes `o`, `Error()` returns exactly
`"error executing: " ++ c ++ ":\n" ++ e ++ "\n" ++ TrimSpace(o)`; and a run that
fails with `bad input` on standard error returns an error whose text is
`"error executing: <fullCommand>:\nbad input\n"` followed by the trimmed output. -/
theorem Error_text (h : Heap) (p : Nat) (c e o : List Nat)
    (hv : holds h p = some (c, e, o))
    (oc : exec.Outcome) (cmd : exec.Cmd) (h0 : Heap)
    (hf : oc.err ≠ none) (hb : oc.stderr = bytesOf "bad input") :
    CommandError.Error h (some p) = some (bytesOf "error executing: " ++ c ++ bytesOf ":\n"
      ++ e ++ bytesOf "\n" ++ TrimSpace o) ∧
    ∃ q ce, (Run oc cmd h0).err = .commandError q ∧
      (Run oc cmd h0).heap.commandErrors[q]? = some ce ∧
      CommandError.Error (Run oc cmd h0).heap (some q) =
        some (bytesOf "error executing: " ++ ce.fullCommand ++ bytesOf ":\nbad input\n"
          ++ TrimSpace oc.stdout) := by
  refine ⟨Error_of_holds h p c e o hv, ?_⟩
  obtain ⟨h1, h2⟩ := Run_holds oc cmd h0 hf
  refine ⟨h0.commandErrors.length, _, h1, Run_commandError oc cmd h0 hf, ?_⟩
  rw [Error_of_holds _ _ _ _ _ h2, hb]
  simp [bytesOf]

/-- Witness for C1: `/bin/check check --strict` writes blank-padded output and
`bad input` and exits with status 1. -/
theorem Error_text_witness :
    holds (Run badInput sampleCmd emptyHeap).heap 0 =
      some (bytesOf "/bin/check check --strict", bytesOf "bad input",
        bytesOf "\n checked 3 files \n") ∧
    badInput.err ≠ none ∧ badInput.stderr = bytesOf "bad input" ∧
    (CommandError.Error (Run badInput sampleCmd emptyHeap).heap (some 0) =
      some (bytesOf "error executing: " ++ bytesOf "/bin/check check --strict" ++ bytesOf ":\n"
        ++ bytesOf "bad input" ++ bytesOf "\n" ++ TrimSpace (bytesOf "\n checked 3 files \n")) ∧
    ∃ q ce, (Run badInput sampleCmd emptyHeap).err = .commandError q ∧
      (Run badInput sampleCmd emptyHeap).heap.commandErrors[q]? = some ce ∧
      CommandError.Error (Run badInput sampleCmd emptyHeap).heap (some q) =
        some (bytesOf "error executing: " ++ ce.fullCommand ++ bytesOf ":\nbad input\n"
          ++ TrimSpace badInput.stdout)) :=
  ⟨by decide, by decide, by decide,
    Error_text (Run badInput sampleCmd emptyHeap).heap 0 _ _ _ (by decide)
      badInput sampleCmd emptyHeap (by decide) (by decide)⟩

/-- C2: `Run` returns a nil error exactly when the underlying execution reports
success; when the execution reports an error, `Run` returns a non-nil error that
is a newly allocated `CommandError`; on success no `CommandError` is constructed. -/
theorem Run_err (o : exec.Outcome) (cmd : exec.Cmd) (h : Heap) :
    ((Run o cmd h).err = .nil ↔ o.err = none) ∧
    (o.err ≠ none → ∃ p ce, (Run o cmd h).err = .commandError p ∧
      (Run o cmd h).heap.commandErrors[p]? = some ce ∧ h.commandErrors[p]? = none) ∧
    (o.err = none → (Run o cmd h).heap.commandErrors = h.commandErrors) := by
  refine ⟨?_, ?_, ?_⟩
  · by_cases hf : o.err = none
    · simp [hf, Run_err_ok o cmd h hf]
    · simp [hf, Run_err_fail o cmd h hf]
  · intro hf
    exact ⟨h.commandErrors.length, _, Run_err_fail o cmd h hf, Run_commandError o cmd h hf,
      List.getElem?_eq_none (le_refl _)⟩
  · intro hf
    exact Run_heap_errors_ok o cmd h hf

/-- C3: `Run` always returns a non-nil `Streams`; and when it returns a
`CommandError`, that error points to the very same `Streams`, so the bytes that
`Error()` prints are the bytes of the returned `Stderr()` and `Stdout()` buffers. -/
theorem Run_streams (o : exec.Outcome) (cmd : exec.Cmd) (h : Heap) :
    ∃ s st, (Run o cmd h).streams = some s ∧ (Run o cmd h).heap.streams[s]? = some st ∧
      ∀ p, (Run o cmd h).err = .commandError p →
        ∃ ce eb ob, (Run o cmd h).heap.commandErrors[p]? = some ce ∧
          ce.streams = (Run o cmd h).streams ∧
          (Streams.Stderr (Run o cmd h).heap (Run o cmd h).streams).bind
            (Bytes (Run o cmd h).heap) = some eb ∧
          (Streams.Stdout (Run o cmd h).heap (Run o cmd h).streams).bind
            (Bytes (Run o cmd h).heap) = some ob ∧
          CommandError.Error (Run o cmd h).heap (some p) =
            some (bytesOf "error executing: " ++ ce.fullCommand ++ bytesOf ":\n" ++ eb
              ++ bytesOf "\n" ++ TrimSpace ob) := by
  refine ⟨h.streams.length, _, Run_streams_ptr o cmd h, Run_streams_obj o cmd h, ?_⟩
  intro p hp
  have hf : o.err ≠ none := by
    intro hn
    rw [Run_err_ok o cmd h hn] at hp
    exact absurd hp (by simp)
  obtain ⟨h1, h2⟩ := Run_holds o cmd h hf
  have hpe : p = h.commandErrors.length := by
    rw [h1] at hp
    injection hp with hp
    exact hp.symm
  subst hpe
  have h3 := Error_of_holds _ _ _ _ _ h2
  exact ⟨_, o.stderr, o.stdout, Run_commandError o cmd h hf, (Run_streams_ptr o cmd h).symm,
    Run_stderr o cmd h, Run_stdout o cmd h, h3⟩

end runcmd

namespace strings

theorem intercalate_cons (sep r : List Nat) (rs : List (List Nat)) :
    List.intercalate sep (r :: rs) = r ++ List.intercalate sep ([] :: rs) := by
  cases rs <;> simp [List.intercalate, List.intersperse]

theorem foldl_sep (sep : List Nat) (rest : List (List Nat)) (a : List Nat) :
    rest.foldl (fun b s => b ++ sep ++ s) a = a ++ List.intercalate sep ([] :: rest) := by
  induction rest generalizing a with
  | nil => simp [List.intercalate, List.intersperse]
  | cons r rs ih =>
    rw [List.foldl_cons, ih]
    have h1 : List.intercalate sep ([] :: r :: rs) = sep ++ List.intercalate sep (r :: rs) := by
      simp [List.intercalate, List.intersperse]
    rw [h1, intercalate_cons sep r rs]
    simp only [List.append_assoc]

/-- The function `strings.Join` puts `sep` between consecutive elements. -/
theorem Join_eq_intercalate (elems : List (List Nat)) (sep : List Nat) :
    Join elems sep = List.intercalate sep elems := by
  rcases elems with _ | ⟨a, _ | ⟨b, rest⟩⟩
  · rfl
  · simp [Join, List.intercalate, List.intersperse]
  · show (b :: rest).foldl (fun b s => b ++ sep ++ s) a = _
    rw [foldl_sep, intercalate_cons sep a]

end strings

namespace runcmd

open bytes

/-- C4: when the underlying execution fails, the full command recorded in the
returned `CommandError` is the program path, a space, and the arguments joined
by single spaces; for an empty argument list it is the path followed by a space. -/
theorem Run_fullCommand (o : exec.Outcome) (cmd : exec.Cmd) (h : Heap) (hf : o.err ≠ none) :
    ∃ p ce, (Run o cmd h).err = .commandError p ∧
      (Run o cmd h).heap.commandErrors[p]? = some ce ∧
      ce.fullCommand = cmd.Path ++ bytesOf " " ++ strings.Join cmd.Args (bytesOf " ") ∧
      ce.fullCommand = cmd.Path ++ bytesOf " " ++ List.intercalate (bytesOf " ") cmd.Args ∧
      (cmd.Args = [] → ce.fullCommand = cmd.Path ++ bytesOf " ") := by
  refine ⟨h.commandErrors.length, _, Run_err_fail o cmd h hf, Run_commandError o cmd h hf,
    rfl, ?_, ?_⟩
  · rw [strings.Join_eq_intercalate]
  · intro ha
    rw [ha]
    simp [strings.Join]

/-- Witness for C4: the failing run of `/bin/check check --strict`. -/
theorem Run_fullCommand_witness :
    badInput.err ≠ none ∧
    ∃ p ce, (Run badInput sampleCmd emptyHeap).err = .commandError p ∧
      (Run badInput sampleCmd emptyHeap).heap.commandErrors[p]? = some ce ∧
      ce.fullCommand = sampleCmd.Path ++ bytesOf " "
        ++ strings.Join sampleCmd.Args (bytesOf " ") ∧
      ce.fullCommand = sampleCmd.Path ++ bytesOf " "
        ++ List.intercalate (bytesOf " ") sampleCmd.Args ∧
      (sampleCmd.Args = [] → ce.fullCommand = sampleCmd.Path ++ bytesOf " ") :=
  ⟨by decide, Run_fullCommand badInput sampleCmd emptyHeap (by decide)⟩

/-- C6: the returned `Stdout()` and `Stderr()` buffers hold exactly the bytes the
process wrote to standard output and standard error, untrimmed, on success and
on failure alike; the two buffers are new, distinct and start empty, and no
buffer that existed before is changed.  A process that writes `hello` and a
newline and exits with status 0 yields that output, an empty error buffer and a
nil error. -/
theorem Run_captures (o : exec.Outcome) (cmd : exec.Cmd) (h : Heap) :
    (Streams.Stdout (Run o cmd h).heap (Run o cmd h).streams).bind (Bytes (Run o cmd h).heap)
      = some o.stdout ∧
    (Streams.Stderr (Run o cmd h).heap (Run o cmd h).streams).bind (Bytes (Run o cmd h).heap)
      = some o.stderr ∧
    (∃ s st ao ae, (Run o cmd h).streams = some s ∧ (Run o cmd h).heap.streams[s]? = some st ∧
      st.out = some ao ∧ st.err = some ae ∧ ao ≠ ae ∧
      h.buffers[ao]? = none ∧ h.buffers[ae]? = none ∧
      (Run o cmd h).heap.buffers[ao]? = some (Buffer.mk ([] ++ o.stdout) 0) ∧
      (Run o cmd h).heap.buffers[ae]? = some (Buffer.mk ([] ++ o.stderr) 0)) ∧
    (∀ (a : Nat) (b : Buffer), h.buffers[a]? = some b →
      (Run o cmd h).heap.buffers[a]? = some b) ∧
    ((Streams.Stdout (Run echoHello cmd h).heap (Run echoHello cmd h).streams).bind
        (Bytes (Run echoHello cmd h).heap) = some (bytesOf "hello\n") ∧
      (Streams.Stderr (Run echoHello cmd h).heap (Run echoHello cmd h).streams).bind
        (Bytes (Run echoHello cmd h).heap) = some [] ∧
      (Run echoHello cmd h).err = .nil) := by
  refine ⟨Run_stdout o cmd h, Run_stderr o cmd h, ?_, ?_, ?_⟩
  · refine ⟨h.streams.length, _, h.buffers.length, h.buffers.length + 1, Run_streams_ptr o cmd h,
      Run_streams_obj o cmd h, rfl, rfl, by omega, List.getElem?_eq_none (le_refl _),
      List.getElem?_eq_none (by omega), ?_, ?_⟩
    · rw [Run_heap_buffers]; exact lookup_fst _ _ _
    · rw [Run_heap_buffers]; exact lookup_snd _ _ _
  · intro a b hab
    rw [Run_heap_buffers]
    have hlt : a < h.buffers.length := by
      by_contra hge
      rw [List.getElem?_eq_none (by omega)] at hab
      exact absurd hab (by simp)
    rw [List.getElem?_append_left hlt]
    exact hab
  · exact ⟨Run_stdout echoHello cmd h, Run_stderr echoHello cmd h,
      Run_err_ok echoHello cmd h rfl⟩

/-- C7: two failing runs with the same program path, the same arguments and the
same captured output and error bytes return errors with the same full command
and the same `Error()` text, whatever the underlying execution errors were. -/
theorem Run_error_uniform (o1 o2 : exec.Outcome) (cmd1 cmd2 : exec.Cmd) (h1 h2 : Heap)
    (hp : cmd1.Path = cmd2.Path) (ha : cmd1.Args = cmd2.Args)
    (hout : o1.stdout = o2.stdout) (herr : o1.stderr = o2.stderr)
    (hf1 : o1.err ≠ none) (hf2 : o2.err ≠ none) :
    ∃ p1 p2 ce1 ce2 text, (Run o1 cmd1 h1).err = .commandError p1 ∧
      (Run o2 cmd2 h2).err = .commandError p2 ∧
      (Run o1 cmd1 h1).heap.commandErrors[p1]? = some ce1 ∧
      (Run o2 cmd2 h2).heap.commandErrors[p2]? = some ce2 ∧
      ce1.fullCommand = ce2.fullCommand ∧
      CommandError.Error (Run o1 cmd1 h1).heap (some p1) = some text ∧
      CommandError.Error (Run o2 cmd2 h2).heap (some p2) = some text := by
  obtain ⟨e1, v1⟩ := Run_holds o1 cmd1 h1 hf1
  obtain ⟨e2, v2⟩ := Run_holds o2 cmd2 h2 hf2
  refine ⟨_, _, _, _, _, e1, e2, Run_commandError o1 cmd1 h1 hf1, Run_commandError o2 cmd2 h2 hf2,
    ?_, Error_of_holds _ _ _ _ _ v1, ?_⟩
  · show cmd1.Path ++ _ ++ _ = cmd2.Path ++ _ ++ _
    rw [hp, ha]
  · rw [Error_of_holds _ _ _ _ _ v2, hp, ha, hout, herr]

/-- Witness for C7: the same command, output and error bytes, once with exit
status 1 and once with a failure reported as `killed`. -/
theorem Run_error_uniform_witness :
    sampleCmd.Path = sampleCmd.Path ∧ sampleCmd.Args = sampleCmd.Args ∧
    badInput.stdout = ({ badInput with err := some (.start (bytesOf "killed")) }).stdout ∧
    badInput.stderr = ({ badInput with err := some (.start (bytesOf "killed")) }).stderr ∧
    badInput.err ≠ none ∧
    ({ badInput with err := some (.start (bytesOf "killed")) } : exec.Outcome).err ≠ none ∧
    ∃ p1 p2 ce1 ce2 text, (Run badInput sampleCmd emptyHeap).err = .commandError p1 ∧
      (Run { badInput with err := some (.start (bytesOf "killed")) } sampleCmd
        (Run badInput sampleCmd emptyHeap).heap).err = .commandError p2 ∧
      (Run badInput sampleCmd emptyHeap).heap.commandErrors[p1]? = some ce1 ∧
      (Run { badInput with err := some (.start (bytesOf "killed")) } sampleCmd
        (Run badInput sampleCmd emptyHeap).heap).heap.commandErrors[p2]? = some ce2 ∧
      ce1.fullCommand = ce2.fullCommand ∧
      CommandError.Error (Run badInput sampleCmd emptyHeap).heap (some p1) = some text ∧
      CommandError.Error (Run { badInput with err := some (.start (bytesOf "killed")) } sampleCmd
        (Run badInput sampleCmd emptyHeap).heap).heap (some p2) = some text :=
  ⟨rfl, rfl, rfl, rfl, by decide, by decide,
    Run_error_uniform badInput { badInput with err := some (.start (bytesOf "killed")) }
      sampleCmd sampleCmd emptyHeap (Run badInput sampleCmd emptyHeap).heap rfl rfl rfl rfl
      (by decide) (by decide)⟩

/-- C5 as stated fails: a process that writes a no-break space (U+00A0, bytes
0xC2 0xA0) and `x` to standard output and exits with status 1 gives the error
text `error executing: /bin/check check --strict:`, an empty line and `x`; the
output is not `w1 ++ t ++ w2` with `t` the printed part and `w1`, `w2` made only
of space, tab, newline, carriage return, vertical tab and form feed. -/
theorem Error_trim_ascii_only_fails :
    holds (Run nbspOutput sampleCmd emptyHeap).heap 0 =
      some (bytesOf "/bin/check check --strict", [], [0xC2, 0xA0, 0x78]) ∧
    CommandError.Error (Run nbspOutput sampleCmd emptyHeap).heap (some 0) =
      some (bytesOf "error executing: /bin/check check --strict:\n\nx") ∧
    ¬ ∃ t w1 w2,
      CommandError.Error (Run nbspOutput sampleCmd emptyHeap).heap (some 0) =
        some (bytesOf "error executing: " ++ bytesOf "/bin/check check --strict" ++ bytesOf ":\n"
          ++ [] ++ bytesOf "\n" ++ t) ∧
      [0xC2, 0xA0, 0x78] = w1 ++ t ++ w2 ∧
      (∀ b ∈ w1, asciiSpace b ≠ 0) ∧ (∀ b ∈ w2, asciiSpace b ≠ 0) := by
  have hE : CommandError.Error (Run nbspOutput sampleCmd emptyHeap).heap (some 0) =
      some (bytesOf "error executing: /bin/check check --strict:\n\nx") := by decide
  refine ⟨by decide, hE, ?_⟩
  rintro ⟨t, w1, w2, h1, h2, h3, -⟩
  rw [hE] at h1
  have ht : t = [0x78] := by
    simp [bytesOf] at h1
    exact h1.symm
  subst ht
  rcases w1 with _ | ⟨a, w1⟩
  · simp at h2
  · simp only [List.cons_append, List.cons.injEq] at h2
    have := h3 a (by simp)
    rw [← h2.1] at this
    exact this (by decide)

/-- C5, amended: the part of `Error()` after the header is the error bytes `e`
unmodified, a newline, and a string `t` with `o = w1 ++ t ++ w2`, where `w1` and
`w2` consist only of white space as defined by Unicode (the UTF-8 encoded code
points for which `unicode.IsSpace` holds, which are exactly those listed in
`spaceEncodings`) and `t` neither begins nor ends with such a character, in
particular not with space, tab, newline, carriage return, vertical tab or form
feed; an all-white-space `o` renders as the empty string, and `Error()` is
unchanged when white space is added in front of or behind `o`. -/
theorem Error_trims_output (h : Heap) (p : Nat) (c e o : List Nat)
    (hv : holds h p = some (c, e, o)) :
    ∃ t w1 w2,
      CommandError.Error h (some p) = some (bytesOf "error executing: " ++ c ++ bytesOf ":\n"
        ++ e ++ bytesOf "\n" ++ t) ∧
      o = w1 ++ t ++ w2 ∧ AllSpace w1 ∧ AllSpace w2 ∧
      (∀ s, spaceSeq s = true ↔ s ∈ spaceEncodings) ∧
      (∀ s q, spaceSeq s = true → t ≠ s ++ q) ∧ (∀ q s, spaceSeq s = true → t ≠ q ++ s) ∧
      (∀ b, asciiSpace b ≠ 0 → t.head? ≠ some b ∧ t.getLast? ≠ some b) ∧
      (AllSpace o → t = []) ∧
      (∀ h2 p2 v1 v2, AllSpace v1 → AllSpace v2 →
        holds h2 p2 = some (c, e, v1 ++ o ++ v2) →
        CommandError.Error h2 (some p2) = CommandError.Error h (some p)) := by
  obtain ⟨w1, w2, h1, h2, h3, h4⟩ := TrimSpace_decomp o
  refine ⟨TrimSpace o, w1, w2, Error_of_holds h p c e o hv, h3, h1, h2, spaceSeq_iff_mem,
    fun s q hs => Trimmed_no_leading _ h4 s q hs,
    fun q s hs => Trimmed_no_trailing _ h4 q s hs, ?_, ?_, ?_⟩
  · intro b hb
    have hs := asciiSpace_spaceSeq b hb
    constructor
    · intro hh
      rcases ht : TrimSpace o with _ | ⟨a, rest⟩
      · rw [ht] at hh; simp at hh
      · rw [ht] at hh
        simp only [List.head?_cons, Option.some.injEq] at hh
        subst hh
        exact Trimmed_no_leading _ h4 [a] rest hs ht
    · intro hh
      rcases List.eq_nil_or_concat (TrimSpace o) with ht | ⟨q, a, ht⟩
      · rw [ht] at hh; simp at hh
      · rw [List.concat_eq_append] at ht
        rw [ht] at hh
        have hab : a = b := by simpa using hh
        subst hab
        exact Trimmed_no_trailing _ h4 q [a] hs ht
  · intro ho
    have := TrimSpace_eq o [] [] ho AllSpace.nil (by decide)
    simpa using this
  · intro h2 p2 v1 v2 hv1 hv2 hv2'
    rw [Error_of_holds h2 p2 _ _ _ hv2', Error_of_holds h p c e o hv,
      TrimSpace_around v1 o v2 hv1 hv2]

/-- Witness for C5: the `CommandError` of the failing run of
`/bin/check check --strict`. -/
theorem Error_trims_output_witness :
    holds (Run badInput sampleCmd emptyHeap).heap 0 =
      some (bytesOf "/bin/check check --strict", bytesOf "bad input",
        bytesOf "\n checked 3 files \n") ∧
    ∃ t w1 w2,
      CommandError.Error (Run badInput sampleCmd emptyHeap).heap (some 0) =
        some (bytesOf "error executing: " ++ bytesOf "/bin/check check --strict" ++ bytesOf ":\n"
          ++ bytesOf "bad input" ++ bytesOf "\n" ++ t) ∧
      bytesOf "\n checked 3 files \n" = w1 ++ t ++ w2 ∧ AllSpace w1 ∧ AllSpace w2 ∧
      (∀ s, spaceSeq s = true ↔ s ∈ spaceEncodings) ∧
      (∀ s q, spaceSeq s = true → t ≠ s ++ q) ∧ (∀ q s, spaceSeq s = true → t ≠ q ++ s) ∧
      (∀ b, asciiSpace b ≠ 0 → t.head? ≠ some b ∧ t.getLast? ≠ some b) ∧
      (AllSpace (bytesOf "\n checked 3 files \n") → t = []) ∧
      (∀ h2 p2 v1 v2, AllSpace v1 → AllSpace v2 →
        holds h2 p2 = some (bytesOf "/bin/check check --strict", bytesOf "bad input",
          v1 ++ bytesOf "\n checked 3 files \n" ++ v2) →
        CommandError.Error h2 (some p2) =
          CommandError.Error (Run badInput sampleCmd emptyHeap).heap (some 0)) :=
  ⟨by decide, Error_trims_output (Run badInput sampleCmd emptyHeap).heap 0 _ _ _ (by decide)⟩

/-- C8: when the execution fails without writing anything (the executable does
not exist), `Run` returns a `CommandError` and `Streams` whose two buffers are
empty; the recorded full command begins with the requested path, and `Error()`
is `"error executing: " ++ p ++ " " ++ join(" ", args) ++ ":\n\n"`. -/
theorem Run_nothing_written (o : exec.Outcome) (cmd : exec.Cmd) (h : Heap)
    (hout : o.stdout = []) (herr : o.stderr = []) (hf : o.err ≠ none) :
    (Streams.Stdout (Run o cmd h).heap (Run o cmd h).streams).bind (Bytes (Run o cmd h).heap)
      = some [] ∧
    (Streams.Stderr (Run o cmd h).heap (Run o cmd h).streams).bind (Bytes (Run o cmd h).heap)
      = some [] ∧
    ∃ p ce, (Run o cmd h).err = .commandError p ∧
      (Run o cmd h).heap.commandErrors[p]? = some ce ∧
      cmd.Path <+: ce.fullCommand ∧
      CommandError.Error (Run o cmd h).heap (some p) =
        some (bytesOf "error executing: " ++ cmd.Path ++ bytesOf " "
          ++ strings.Join cmd.Args (bytesOf " ") ++ bytesOf ":\n\n") := by
  obtain ⟨h1, h2⟩ := Run_holds o cmd h hf
  refine ⟨by rw [Run_stdout, hout], by rw [Run_stderr, herr], h.commandErrors.length, _, h1,
    Run_commandError o cmd h hf, ⟨bytesOf " " ++ strings.Join cmd.Args (bytesOf " "), ?_⟩, ?_⟩
  · simp only [List.append_assoc]
  · rw [Error_of_holds _ _ _ _ _ h2, hout, herr]
    have : TrimSpace [] = [] := by decide
    rw [this]
    simp [bytesOf]

/-- Witness for C8: `/bin/check` does not exist and nothing is written. -/
theorem Run_nothing_written_witness :
    notFound.stdout = [] ∧ notFound.stderr = [] ∧ notFound.err ≠ none ∧
    ((Streams.Stdout (Run notFound sampleCmd emptyHeap).heap
        (Run notFound sampleCmd emptyHeap).streams).bind
        (Bytes (Run notFound sampleCmd emptyHeap).heap) = some [] ∧
    (Streams.Stderr (Run notFound sampleCmd emptyHeap).heap
        (Run notFound sampleCmd emptyHeap).streams).bind
        (Bytes (Run notFound sampleCmd emptyHeap).heap) = some [] ∧
    ∃ p ce, (Run notFound sampleCmd emptyHeap).err = .commandError p ∧
      (Run notFound sampleCmd emptyHeap).heap.commandErrors[p]? = some ce ∧
      sampleCmd.Path <+: ce.fullCommand ∧
      CommandError.Error (Run notFound sampleCmd emptyHeap).heap (some p) =
        some (bytesOf "error executing: " ++ sampleCmd.Path ++ bytesOf " "
          ++ strings.Join sampleCmd.Args (bytesOf " ") ++ bytesOf ":\n\n")) :=
  ⟨rfl, rfl, by decide, Run_nothing_written notFound sampleCmd emptyHeap rfl rfl (by decide)⟩

/-- C9: `Run` changes only the standard-output and standard-error sinks of the
command, which afterwards are the two buffers of the returned `Streams`: the
output buffer is the standard-output sink and the error buffer the
standard-error sink, whatever was attached before.  The two buffers are live
objects of the returned heap, distinct, newly allocated, the ones `Stdout()` and
`Stderr()` return, and they hold what the process wrote.  Path, arguments,
environment and working directory stay as the caller set them. -/
theorem Run_frame (o : exec.Outcome) (cmd : exec.Cmd) (h : Heap) :
    (Run o cmd h).cmd.Path = cmd.Path ∧ (Run o cmd h).cmd.Args = cmd.Args ∧
    (Run o cmd h).cmd.Env = cmd.Env ∧ (Run o cmd h).cmd.Dir = cmd.Dir ∧
    ∃ s st ao ae bo be, (Run o cmd h).streams = some s ∧
      (Run o cmd h).heap.streams[s]? = some st ∧
      st.out = some ao ∧ st.err = some ae ∧ ao ≠ ae ∧
      (Run o cmd h).heap.buffers[ao]? = some bo ∧
      (Run o cmd h).heap.buffers[ae]? = some be ∧
      h.buffers[ao]? = none ∧ h.buffers[ae]? = none ∧
      Streams.Stdout (Run o cmd h).heap (Run o cmd h).streams = some (some ao) ∧
      Streams.Stderr (Run o cmd h).heap (Run o cmd h).streams = some (some ae) ∧
      bo.Bytes = o.stdout ∧ be.Bytes = o.stderr ∧
      (Run o cmd h).cmd.Stdout = .buffer ao ∧ (Run o cmd h).cmd.Stderr = .buffer ae ∧
      (Run o cmd h).cmd = { cmd with Stdout := .buffer ao, Stderr := .buffer ae } := by
  have hs := Run_streams_obj o cmd h
  have hb := Run_heap_buffers o cmd h
  have hout : Streams.Stdout (Run o cmd h).heap (Run o cmd h).streams
      = some (some h.buffers.length) := by
    rw [Run_streams_ptr]
    unfold Streams.Stdout
    dsimp only
    rw [hs]
    rfl
  have herr : Streams.Stderr (Run o cmd h).heap (Run o cmd h).streams
      = some (some (h.buffers.length + 1)) := by
    rw [Run_streams_ptr]
    unfold Streams.Stderr
    dsimp only
    rw [hs]
    rfl
  refine ⟨by rw [Run_cmd], by rw [Run_cmd], by rw [Run_cmd], by rw [Run_cmd],
    h.streams.length, Streams.mk (some h.buffers.length) (some (h.buffers.length + 1)),
    h.buffers.length, h.buffers.length + 1, Buffer.mk o.stdout 0, Buffer.mk o.stderr 0,
    Run_streams_ptr o cmd h, hs, rfl, rfl, by omega, ?_, ?_,
    List.getElem?_eq_none (le_refl _), List.getElem?_eq_none (by omega), hout, herr, rfl, rfl,
    by rw [Run_cmd], by rw [Run_cmd], Run_cmd o cmd h⟩
  · rw [hb]; exact lookup_fst _ _ _
  · rw [hb]; exact lookup_snd _ _ _

/-- C10: a `CommandError` returned by `Run` has a non-nil `streams` pointer whose
`out` and `err` buffers are non-nil, so `Error()` on it returns a text and does
not dereference nil; a zero-valued `CommandError`, which `Run` never returns,
makes `Error()` panic. -/
theorem Run_Error_total (o : exec.Outcome) (cmd : exec.Cmd) (h : Heap) (p : Nat)
    (hp : (Run o cmd h).err = .commandError p) :
    (∃ ce s st ao ae bo be text,
      (Run o cmd h).heap.commandErrors[p]? = some ce ∧ ce.streams = some s ∧
      (Run o cmd h).heap.streams[s]? = some st ∧ st.out = some ao ∧ st.err = some ae ∧
      (Run o cmd h).heap.buffers[ao]? = some bo ∧ (Run o cmd h).heap.buffers[ae]? = some be ∧
      CommandError.Error (Run o cmd h).heap (some p) = some text) ∧
    CommandError.Error { buffers := [], streams := [], commandErrors := [CommandError.mk [] none] }
      (some 0) = none := by
  have hf : o.err ≠ none := by
    intro hn
    rw [Run_err_ok o cmd h hn] at hp
    exact absurd hp (by simp)
  obtain ⟨h1, h2⟩ := Run_holds o cmd h hf
  have hpe : p = h.commandErrors.length := by
    rw [h1] at hp
    injection hp with hp
    exact hp.symm
  subst hpe
  refine ⟨⟨_, h.streams.length, _, h.buffers.length, h.buffers.length + 1,
    Buffer.mk o.stdout 0, Buffer.mk o.stderr 0, _,
    Run_commandError o cmd h hf, rfl, Run_streams_obj o cmd h, rfl, rfl, ?_, ?_,
    Error_of_holds _ _ _ _ _ h2⟩, by decide⟩
  · rw [Run_heap_buffers]; exact lookup_fst _ _ _
  · rw [Run_heap_buffers]; exact lookup_snd _ _ _

/-- Witness for C10: the error returned by the failing run of
`/bin/check check --strict`. -/
theorem Run_Error_total_witness :
    (Run badInput sampleCmd emptyHeap).err = .commandError 0 ∧
    ((∃ ce s st ao ae bo be text,
      (Run badInput sampleCmd emptyHeap).heap.commandErrors[0]? = some ce ∧
      ce.streams = some s ∧
      (Run badInput sampleCmd emptyHeap).heap.streams[s]? = some st ∧
      st.out = some ao ∧ st.err = some ae ∧
      (Run badInput sampleCmd emptyHeap).heap.buffers[ao]? = some bo ∧
      (Run badInput sampleCmd emptyHeap).heap.buffers[ae]? = some be ∧
      CommandError.Error (Run badInput sampleCmd emptyHeap).heap (some 0) = some text) ∧
    CommandError.Error { buffers := [], streams := [], commandErrors := [CommandError.mk [] none] }
      (some 0) = none) :=
  ⟨by decide, Run_Error_total badInput sampleCmd emptyHeap 0 (by decide)⟩

end runcmd
